import Mathlib

/-!
Verification of the BFV/RNS arithmetic core (`fhe-no-std`).

This file embeds the modulus kernel (`src/internal/math/src/zq/mod.rs`), the
parameter builder (`src/crates/bfv/src/parameters.rs`), the ciphertext algebra
(`src/crates/bfv/src/ciphertext.rs`) and the serialization entry points in
Lean, and proves the specification claims about them.  Machine integers are
modelled as `Nat` with explicit `% 2^w` wrapping wherever the Rust code can
wrap; `debug_assert!` aborts and `assert!` panics are modelled as `Option`
(`none` = abort); recoverable `Result` errors are modelled as `Except String`.
Components of the repository whose implementation is not part of the excerpt
(the RNS `Scaler`, `RnsContext::lift`, `util::is_prime`,
`util::transcode_forward/backward`, `nfl::generate_prime`,
`EvaluationKey::relinearizes`) are modelled from the specification text and
carry a doc comment saying so.
-/

namespace FheNoStd

/-! ## Modulus kernel (`src/internal/math/src/zq/mod.rs`) -/

namespace Modulus

/-- `Modulus::reduce1(x, p)`: branchless `x mod p` for `x ∈ [0, 2p)`, as in the
source (wrapping subtraction, xor trick, masked select), on `u64` values. -/
def reduce1 (x p : Nat) : Nat :=
  let y := (x + (2 ^ 64 - p)) % 2 ^ 64
  let xp := x ^^^ p
  let yp := y ^^^ p
  let xy := xp ^^^ yp
  let xxy := x ^^^ xy
  let t := xxy >>> 63
  let c := (t + (2 ^ 64 - 1)) % 2 ^ 64
  (c &&& y) ||| ((c ^^^ (2 ^ 64 - 1)) &&& x)

/-- `Modulus::reduce1_vt(x, p)`: the variable-time sibling with a data
dependent branch. -/
def reduce1_vt (x p : Nat) : Nat :=
  if x ≥ p then x - p else x

theorem reduce1_vt_spec {x p : Nat} (_hp : 0 < p) (hx : x < 2 * p) :
    reduce1_vt x p = x % p := by
  unfold reduce1_vt
  split
  · rw [Nat.mod_eq_sub_mod (by omega), Nat.mod_eq_of_lt (by omega)]
  · rw [Nat.mod_eq_of_lt (by omega)]

theorem xor_shuffle (x p y : Nat) : x ^^^ ((x ^^^ p) ^^^ (y ^^^ p)) = y := by
  rw [Nat.xor_assoc, Nat.xor_comm p (y ^^^ p), Nat.xor_assoc y p p, Nat.xor_self,
    Nat.xor_zero, ← Nat.xor_assoc, Nat.xor_self, Nat.zero_xor]

theorem reduce1_spec {x p : Nat} (hp : 0 < p) (hp63 : p < 2 ^ 63) (hx : x < 2 * p) :
    reduce1 x p = x % p := by
  unfold reduce1
  simp only []
  rcases le_or_lt p x with h | h
  · -- `x ≥ p`: the wrapped subtraction does not borrow, result is `x - p`.
    have hy : (x + (2 ^ 64 - p)) % 2 ^ 64 = x - p := by omega
    rw [hy, xor_shuffle]
    have ht : (x - p) >>> 63 = 0 := by
      rw [Nat.shiftRight_eq_div_pow]
      omega
    rw [ht]
    have hc : (0 + (2 ^ 64 - 1)) % 2 ^ 64 = 2 ^ 64 - 1 := by norm_num
    rw [hc, Nat.xor_self, Nat.zero_and, Nat.or_zero, Nat.and_comm,
      Nat.and_pow_two_sub_one_eq_mod]
    have hr : x % p = x - p := by
      rw [Nat.mod_eq_sub_mod h, Nat.mod_eq_of_lt (by omega)]
    rw [hr, Nat.mod_eq_of_lt (by omega)]
  · -- `x < p`: the wrapped subtraction borrows, result is `x`.
    have hy : (x + (2 ^ 64 - p)) % 2 ^ 64 = x + (2 ^ 64 - p) := by omega
    rw [hy, xor_shuffle]
    have ht : (x + (2 ^ 64 - p)) >>> 63 = 1 := by
      rw [Nat.shiftRight_eq_div_pow]
      omega
    rw [ht]
    have hc : (1 + (2 ^ 64 - 1)) % 2 ^ 64 = 0 := by norm_num
    rw [hc, Nat.zero_and, Nat.zero_xor, Nat.zero_or, Nat.and_comm,
      Nat.and_pow_two_sub_one_eq_mod]
    have hr : x % p = x := Nat.mod_eq_of_lt h
    rw [hr, Nat.mod_eq_of_lt (by omega)]

/-- The Barrett constant `⌊2^128 / p⌋` computed in `Modulus::new`. -/
def barrett (p : Nat) : Nat := 2 ^ 128 / p

/-- High 64 bits of the Barrett constant (`barrett_hi`). -/
def barrett_hi (p : Nat) : Nat := barrett p / 2 ^ 64

/-- Low 64 bits of the Barrett constant (`barrett_lo`). -/
def barrett_lo (p : Nat) : Nat := barrett p % 2 ^ 64

/-- `Modulus::lazy_reduce_u128`: Barrett reduction of a `u128` into `[0, 2p)`.
Each `u128` arithmetic step carries its `% 2^128` wrap; the `>> 64` shifts are
divisions and the final `as u64` cast is `% 2^64`. -/
def lazy_reduce_u128 (p a : Nat) : Nat :=
  let a_lo := a % 2 ^ 64
  let a_hi := a / 2 ^ 64 % 2 ^ 64
  let p_lo_lo := a_lo * barrett_lo p % 2 ^ 128 / 2 ^ 64
  let p_hi_lo := a_hi * barrett_lo p % 2 ^ 128
  let p_lo_hi := a_lo * barrett_hi p % 2 ^ 128
  let q := (((p_lo_hi + p_hi_lo) % 2 ^ 128 + p_lo_lo) % 2 ^ 128 / 2 ^ 64
      + a_hi * barrett_hi p % 2 ^ 128) % 2 ^ 128
  let r := (a + 2 ^ 128 - q * p % 2 ^ 128) % 2 ^ 128
  r % 2 ^ 64

/-- Splitting a double-word division: `(U·2^64 + L) / 2^128 = (U + L/2^64) / 2^64`. -/
theorem div_two_pow_split (U L : Nat) :
    (U * 2 ^ 64 + L) / 2 ^ 128 = (U + L / 2 ^ 64) / 2 ^ 64 := by
  have h : (2 : Nat) ^ 128 = 2 ^ 64 * 2 ^ 64 := by norm_num
  rw [h, ← Nat.div_div_eq_div_mul]
  congr 1
  rw [Nat.add_comm, Nat.add_mul_div_right _ _ (by positivity : (0:Nat) < 2 ^ 64)]
  omega

/-- The computed Barrett quotient is exactly `⌊a·β / 2^128⌋` for `a < 2^124`. -/
theorem barrett_quotient_eq {p a : Nat} (hp : 2 ≤ p) (ha : a < 2 ^ 124) :
    (((a % 2 ^ 64 * barrett_hi p % 2 ^ 128
        + a / 2 ^ 64 % 2 ^ 64 * barrett_lo p % 2 ^ 128) % 2 ^ 128
        + a % 2 ^ 64 * barrett_lo p % 2 ^ 128 / 2 ^ 64) % 2 ^ 128 / 2 ^ 64
      + a / 2 ^ 64 % 2 ^ 64 * barrett_hi p % 2 ^ 128) % 2 ^ 128
      = a * barrett p / 2 ^ 128 := by
  set alo := a % 2 ^ 64 with halo
  have ha_hi : a / 2 ^ 64 % 2 ^ 64 = a / 2 ^ 64 := by
    apply Nat.mod_eq_of_lt
    omega
  set ahi := a / 2 ^ 64 with hahi
  rw [ha_hi]
  have hβlo : barrett_lo p < 2 ^ 64 := Nat.mod_lt _ (by positivity)
  have hβ2 : barrett p ≤ 2 ^ 127 := by
    have : 2 ^ 128 / p ≤ 2 ^ 128 / 2 := Nat.div_le_div_left hp (by norm_num)
    simpa [barrett] using this
  have hβhi : barrett_hi p ≤ 2 ^ 63 := by
    rw [barrett_hi]
    omega
  have haloβ : alo < 2 ^ 64 := Nat.mod_lt _ (by positivity)
  have hahiβ : ahi < 2 ^ 60 := by
    rw [hahi]
    omega
  -- drop all the (provably inactive) `% 2^128` wraps
  have h1 : alo * barrett_hi p < 2 ^ 128 := by
    calc alo * barrett_hi p ≤ 2 ^ 64 * 2 ^ 63 := by
          exact Nat.mul_le_mul (by omega) hβhi
      _ < 2 ^ 128 := by norm_num
  have h2 : ahi * barrett_lo p < 2 ^ 128 := by
    calc ahi * barrett_lo p ≤ 2 ^ 60 * 2 ^ 64 := by
          exact Nat.mul_le_mul (by omega) (by omega)
      _ < 2 ^ 128 := by norm_num
  have h3 : alo * barrett_lo p < 2 ^ 128 := by
    calc alo * barrett_lo p ≤ (2 ^ 64 - 1) * (2 ^ 64 - 1) :=
          Nat.mul_le_mul (by omega) (by omega)
      _ < 2 ^ 128 := by norm_num
  have h4 : ahi * barrett_hi p < 2 ^ 128 := by
    calc ahi * barrett_hi p ≤ 2 ^ 60 * 2 ^ 63 := Nat.mul_le_mul (by omega) hβhi
      _ < 2 ^ 128 := by norm_num
  rw [Nat.mod_eq_of_lt h1, Nat.mod_eq_of_lt h2, Nat.mod_eq_of_lt h3,
    Nat.mod_eq_of_lt h4]
  have h5 : alo * barrett_hi p + ahi * barrett_lo p < 2 ^ 128 := by
    calc alo * barrett_hi p + ahi * barrett_lo p
        ≤ 2 ^ 64 * 2 ^ 63 + 2 ^ 60 * 2 ^ 64 := by
          exact Nat.add_le_add (Nat.mul_le_mul (by omega) hβhi)
            (Nat.mul_le_mul (by omega) (by omega))
      _ < 2 ^ 128 := by norm_num
  rw [Nat.mod_eq_of_lt h5]
  have h6 : alo * barrett_hi p + ahi * barrett_lo p
      + alo * barrett_lo p / 2 ^ 64 < 2 ^ 128 := by
    have : alo * barrett_lo p / 2 ^ 64 < 2 ^ 64 := by omega
    calc alo * barrett_hi p + ahi * barrett_lo p + alo * barrett_lo p / 2 ^ 64
        ≤ 2 ^ 64 * 2 ^ 63 + 2 ^ 60 * 2 ^ 64 + 2 ^ 64 := by
          exact Nat.add_le_add (Nat.add_le_add (Nat.mul_le_mul (by omega) hβhi)
            (Nat.mul_le_mul (by omega) (by omega))) (by omega)
      _ < 2 ^ 128 := by norm_num
  rw [Nat.mod_eq_of_lt h6]
  have h7 : (alo * barrett_hi p + ahi * barrett_lo p
      + alo * barrett_lo p / 2 ^ 64) / 2 ^ 64 + ahi * barrett_hi p < 2 ^ 128 := by
    have : (alo * barrett_hi p + ahi * barrett_lo p
        + alo * barrett_lo p / 2 ^ 64) / 2 ^ 64 < 2 ^ 64 := by omega
    calc (alo * barrett_hi p + ahi * barrett_lo p
          + alo * barrett_lo p / 2 ^ 64) / 2 ^ 64 + ahi * barrett_hi p
        ≤ 2 ^ 64 + 2 ^ 60 * 2 ^ 63 := by
          exact Nat.add_le_add (by omega) (Nat.mul_le_mul (by omega) hβhi)
      _ < 2 ^ 128 := by norm_num
  rw [Nat.mod_eq_of_lt h7]
  -- now pure arithmetic: reassemble `a` and `β` from their halves
  have hsplit_a : a = ahi * 2 ^ 64 + alo := by
    rw [hahi, halo]
    omega
  have hsplit_b : barrett p = barrett_hi p * 2 ^ 64 + barrett_lo p := by
    rw [barrett_hi, barrett_lo]
    omega
  calc (alo * barrett_hi p + ahi * barrett_lo p
        + alo * barrett_lo p / 2 ^ 64) / 2 ^ 64 + ahi * barrett_hi p
      = ((alo * barrett_hi p + ahi * barrett_lo p) * 2 ^ 64
          + alo * barrett_lo p) / 2 ^ 128 + ahi * barrett_hi p := by
        rw [div_two_pow_split]
    _ = ((alo * barrett_hi p + ahi * barrett_lo p) * 2 ^ 64
          + alo * barrett_lo p
          + ahi * barrett_hi p * 2 ^ 128) / 2 ^ 128 := by
        rw [Nat.add_mul_div_right _ _ (by positivity : (0:Nat) < 2 ^ 128)]
    _ = a * barrett p / 2 ^ 128 := by
        congr 1
        rw [hsplit_a, hsplit_b]
        ring

/-- `x < (⌊x/n⌋ + 1) · n` for positive `n`. -/
theorem lt_div_succ_mul (x n : Nat) (hn : 0 < n) : x < (x / n + 1) * n := by
  calc x = n * (x / n) + x % n := (Nat.div_add_mod x n).symm
    _ < n * (x / n) + n := Nat.add_lt_add_left (Nat.mod_lt x hn) _
    _ = (x / n + 1) * n := by ring

/-- The Barrett quotient under-approximates `a / p`. -/
theorem barrett_quotient_le {p a : Nat} (_hp : 2 ≤ p) :
    a * barrett p / 2 ^ 128 * p ≤ a := by
  have h1 : a * barrett p / 2 ^ 128 * 2 ^ 128 ≤ a * barrett p :=
    Nat.div_mul_le_self _ _
  have h2 : barrett p * p ≤ 2 ^ 128 := by
    rw [barrett]
    exact Nat.div_mul_le_self _ _
  have h3 : a * barrett p / 2 ^ 128 * p * 2 ^ 128 ≤ a * 2 ^ 128 := by
    calc a * barrett p / 2 ^ 128 * p * 2 ^ 128
        = a * barrett p / 2 ^ 128 * 2 ^ 128 * p := by ring
      _ ≤ a * barrett p * p := Nat.mul_le_mul_right p h1
      _ = a * (barrett p * p) := by ring
      _ ≤ a * 2 ^ 128 := Nat.mul_le_mul_left a h2
  exact Nat.le_of_mul_le_mul_right h3 (by positivity)

/-- The Barrett remainder is below `2p` when `a` is a product of two reduced
values (`a ≤ (p-1)²`). -/
theorem barrett_remainder_lt {p a : Nat} (hp : 2 ≤ p) (hp62 : p < 2 ^ 62)
    (ha : a ≤ (p - 1) * (p - 1)) :
    a - a * barrett p / 2 ^ 128 * p < 2 * p := by
  set q := a * barrett p / 2 ^ 128 with hq
  have hqp : q * p ≤ a := barrett_quotient_le hp
  have ha124 : a < 2 ^ 124 := by
    calc a ≤ (p - 1) * (p - 1) := ha
      _ < 2 ^ 62 * 2 ^ 62 := Nat.mul_lt_mul'' (by omega) (by omega)
      _ = 2 ^ 124 := by norm_num
  -- `p * (β + 1) > 2^128` and `a * β < (q + 1) * 2^128`
  have hβ : 2 ^ 128 < p * (barrett p + 1) := by
    have h := lt_div_succ_mul (2 ^ 128) p (by omega)
    rw [barrett]
    calc (2:Nat) ^ 128 < (2 ^ 128 / p + 1) * p := h
      _ = p * (2 ^ 128 / p + 1) := by ring
  have hq1 : a * barrett p < (q + 1) * 2 ^ 128 := by
    rw [hq]
    exact lt_div_succ_mul _ _ (by positivity)
  -- conclude `a < (q + 2) * p` by multiplying through by `2^128`
  have key : a * 2 ^ 128 < (q + 2) * p * 2 ^ 128 := by
    rcases Nat.eq_zero_or_pos a with rfl | hapos
    · positivity
    calc a * 2 ^ 128 < a * (p * (barrett p + 1)) :=
          mul_lt_mul_of_pos_left hβ hapos
      _ = a * barrett p * p + a * p := by ring
      _ ≤ ((q + 1) * 2 ^ 128 - 1) * p + a * p := by
          exact Nat.add_le_add_right (Nat.mul_le_mul_right p (by omega)) _
      _ ≤ (q + 1) * 2 ^ 128 * p + (a - 1) * p := by
          have hterm : ((q + 1) * 2 ^ 128 - 1) * p = (q + 1) * 2 ^ 128 * p - p := by
            rw [Nat.sub_mul, Nat.one_mul]
          have hterm2 : a * p = (a - 1) * p + p := by
            rw [Nat.sub_mul, Nat.one_mul]
            have : p ≤ a * p := Nat.le_mul_of_pos_left p hapos
            omega
          have hppos : p ≤ (q + 1) * 2 ^ 128 * p := by
            exact Nat.le_mul_of_pos_left p (by positivity)
          omega
      _ ≤ (q + 1) * 2 ^ 128 * p + 2 ^ 128 * p := by
          have : (a - 1) * p ≤ 2 ^ 128 * p :=
            Nat.mul_le_mul_right p (by omega)
          omega
      _ = (q + 2) * p * 2 ^ 128 := by ring
  have h := Nat.lt_of_mul_lt_mul_right key
  have hexp : (q + 2) * p = q * p + 2 * p := by ring
  omega

/-- `Modulus::lazy_reduce_u128` computes exactly `a - ⌊a·β/2^128⌋·p`, which is
congruent to `a` mod `p` and lies in `[0, 2p)`, for `a ≤ (p-1)²`. -/
theorem lazy_reduce_u128_spec {p a : Nat} (hp : 2 ≤ p) (hp62 : p < 2 ^ 62)
    (ha : a ≤ (p - 1) * (p - 1)) :
    lazy_reduce_u128 p a = a - a * barrett p / 2 ^ 128 * p ∧
      lazy_reduce_u128 p a < 2 * p ∧ lazy_reduce_u128 p a % p = a % p := by
  have ha124 : a < 2 ^ 124 := by
    calc a ≤ (p - 1) * (p - 1) := ha
      _ < 2 ^ 62 * 2 ^ 62 := Nat.mul_lt_mul'' (by omega) (by omega)
      _ = 2 ^ 124 := by norm_num
  set q := a * barrett p / 2 ^ 128 with hqdef
  have hqp : q * p ≤ a := barrett_quotient_le hp
  have hlt : a - q * p < 2 * p := barrett_remainder_lt hp hp62 ha
  have hval : lazy_reduce_u128 p a = a - q * p := by
    unfold lazy_reduce_u128
    simp only []
    rw [barrett_quotient_eq hp ha124]
    rw [← hqdef]
    have hqp128 : q * p < 2 ^ 128 := by omega
    rw [Nat.mod_eq_of_lt hqp128]
    have h1 : (a + 2 ^ 128 - q * p) % 2 ^ 128 = a - q * p := by omega
    rw [h1]
    omega
  refine ⟨hval, by omega, ?_⟩
  rw [hval]
  conv_rhs => rw [show a = (a - q * p) + q * p by omega]
  rw [Nat.add_mul_mod_self_right]

/-- `Modulus::reduce_u128`: full reduction of a `u128`. -/
def reduce_u128 (p a : Nat) : Nat := reduce1 (lazy_reduce_u128 p a) p

/-- Variable-time `Modulus::reduce_u128_vt`. -/
def reduce_u128_vt (p a : Nat) : Nat := reduce1_vt (lazy_reduce_u128 p a) p

/-- `Modulus::add`: constant-time modular addition (`u64` addition wraps). -/
def add (p a b : Nat) : Nat := reduce1 ((a + b) % 2 ^ 64) p

/-- `Modulus::add_vt`: variable-time modular addition. -/
def add_vt (p a b : Nat) : Nat := reduce1_vt ((a + b) % 2 ^ 64) p

/-- `Modulus::sub`: constant-time modular subtraction (`a + p - b` on `u64`). -/
def sub (p a b : Nat) : Nat := reduce1 (((a + p) % 2 ^ 64 + 2 ^ 64 - b) % 2 ^ 64) p

/-- `Modulus::sub_vt`: variable-time modular subtraction. -/
def sub_vt (p a b : Nat) : Nat := reduce1_vt (((a + p) % 2 ^ 64 + 2 ^ 64 - b) % 2 ^ 64) p

/-- `Modulus::neg`: constant-time modular negation (`p - a` on `u64`). -/
def neg (p a : Nat) : Nat := reduce1 (p - a) p

/-- `Modulus::mul`: constant-time modular multiplication by 128-bit Barrett. -/
def mul (p a b : Nat) : Nat := reduce_u128 p (a * b % 2 ^ 128)

/-- `Modulus::mul_vt`: variable-time modular multiplication. -/
def mul_vt (p a b : Nat) : Nat := reduce1_vt (lazy_reduce_u128 p (a * b % 2 ^ 128)) p

/-- Debug-build entry point of `Modulus::add`: the `debug_assert!(a < p && b < p)`
abort is `none`. -/
def add_checked (p a b : Nat) : Option Nat :=
  if a < p ∧ b < p then some (add p a b) else none

/-- Debug-build entry point of `Modulus::sub`. -/
def sub_checked (p a b : Nat) : Option Nat :=
  if a < p ∧ b < p then some (sub p a b) else none

/-- Debug-build entry point of `Modulus::mul`. -/
def mul_checked (p a b : Nat) : Option Nat :=
  if a < p ∧ b < p then some (mul p a b) else none

theorem add_spec {p a b : Nat} (hp : 2 ≤ p) (hp62 : p < 2 ^ 62)
    (ha : a < p) (hb : b < p) : add p a b = (a + b) % p := by
  unfold add
  have h1 : (a + b) % 2 ^ 64 = a + b := Nat.mod_eq_of_lt (by omega)
  rw [h1, reduce1_spec (by omega) (by omega) (by omega)]

theorem add_vt_spec {p a b : Nat} (hp : 2 ≤ p) (hp62 : p < 2 ^ 62)
    (ha : a < p) (hb : b < p) : add_vt p a b = (a + b) % p := by
  unfold add_vt
  have h1 : (a + b) % 2 ^ 64 = a + b := Nat.mod_eq_of_lt (by omega)
  rw [h1, reduce1_vt_spec (by omega) (by omega)]

theorem sub_spec {p a b : Nat} (hp : 2 ≤ p) (hp62 : p < 2 ^ 62)
    (ha : a < p) (hb : b < p) : sub p a b = (a + p - b) % p := by
  unfold sub
  have h1 : (a + p) % 2 ^ 64 = a + p := Nat.mod_eq_of_lt (by omega)
  have h2 : (a + p + 2 ^ 64 - b) % 2 ^ 64 = a + p - b := by omega
  rw [h1, h2, reduce1_spec (by omega) (by omega) (by omega)]

theorem sub_vt_spec {p a b : Nat} (hp : 2 ≤ p) (hp62 : p < 2 ^ 62)
    (ha : a < p) (hb : b < p) : sub_vt p a b = (a + p - b) % p := by
  unfold sub_vt
  have h1 : (a + p) % 2 ^ 64 = a + p := Nat.mod_eq_of_lt (by omega)
  have h2 : (a + p + 2 ^ 64 - b) % 2 ^ 64 = a + p - b := by omega
  rw [h1, h2, reduce1_vt_spec (by omega) (by omega)]

theorem neg_spec {p a : Nat} (hp : 2 ≤ p) (hp62 : p < 2 ^ 62)
    (ha : a < p) : neg p a = (p - a) % p := by
  unfold neg
  rw [reduce1_spec (by omega) (by omega) (by omega)]

theorem mul_spec {p a b : Nat} (hp : 2 ≤ p) (hp62 : p < 2 ^ 62)
    (ha : a < p) (hb : b < p) : mul p a b = a * b % p := by
  unfold mul reduce_u128
  have hab : a * b % 2 ^ 128 = a * b := by
    apply Nat.mod_eq_of_lt
    calc a * b ≤ (p - 1) * (p - 1) := Nat.mul_le_mul (by omega) (by omega)
      _ < 2 ^ 128 := by
        calc (p - 1) * (p - 1) < 2 ^ 62 * 2 ^ 62 := Nat.mul_lt_mul'' (by omega) (by omega)
          _ < 2 ^ 128 := by norm_num
  rw [hab]
  obtain ⟨_, hlt, hmod⟩ := lazy_reduce_u128_spec hp hp62
    (show a * b ≤ (p - 1) * (p - 1) from Nat.mul_le_mul (by omega) (by omega))
  rw [reduce1_spec (by omega) (by omega) hlt, hmod]

theorem mul_vt_spec {p a b : Nat} (hp : 2 ≤ p) (hp62 : p < 2 ^ 62)
    (ha : a < p) (hb : b < p) : mul_vt p a b = a * b % p := by
  unfold mul_vt
  have hab : a * b % 2 ^ 128 = a * b := by
    apply Nat.mod_eq_of_lt
    calc a * b ≤ (p - 1) * (p - 1) := Nat.mul_le_mul (by omega) (by omega)
      _ < 2 ^ 128 := by
        calc (p - 1) * (p - 1) < 2 ^ 62 * 2 ^ 62 := Nat.mul_lt_mul'' (by omega) (by omega)
          _ < 2 ^ 128 := by norm_num
  rw [hab]
  obtain ⟨_, hlt, hmod⟩ := lazy_reduce_u128_spec hp hp62
    (show a * b ≤ (p - 1) * (p - 1) from Nat.mul_le_mul (by omega) (by omega))
  rw [reduce1_vt_spec (by omega) hlt, hmod]

/-- Fuel-driven bit length (`fuel ≥ n` always suffices). -/
def bitLenAux : Nat → Nat → Nat
  | 0, _ => 0
  | fuel + 1, n => if n = 0 then 0 else bitLenAux fuel (n / 2) + 1

/-- Bit length of `n` (`64 - n.leading_zeros()` for a `u64`), computed by
structural recursion so that it evaluates inside the kernel. -/
def bitLen (n : Nat) : Nat := bitLenAux n n

theorem bitLenAux_congr : ∀ (f1 f2 n : Nat), n ≤ f1 → n ≤ f2 →
    bitLenAux f1 n = bitLenAux f2 n := by
  intro f1
  induction f1 with
  | zero =>
    intro f2 n h1 h2
    have : n = 0 := by omega
    subst this
    cases f2 with
    | zero => rfl
    | succ f2 => rfl
  | succ f1 ih =>
    intro f2 n h1 h2
    cases f2 with
    | zero =>
      have : n = 0 := by omega
      subst this
      rfl
    | succ f2 =>
      rw [bitLenAux, bitLenAux]
      by_cases hn : n = 0
      · rw [if_pos hn, if_pos hn]
      · rw [if_neg hn, if_neg hn, ih f2 (n / 2) (by omega) (by omega)]

theorem bitLen_succ_div {n : Nat} (hn : n ≠ 0) :
    bitLen n = bitLen (n / 2) + 1 := by
  rcases n with _ | m
  · omega
  · rw [bitLen, bitLenAux, if_neg hn, bitLen]
    rw [bitLenAux_congr m ((m + 1) / 2) ((m + 1) / 2) (by omega) (le_refl _)]

/-- `bitLen` agrees with `Nat.size`. -/
theorem bitLen_eq_size : ∀ n : Nat, bitLen n = Nat.size n := by
  intro n
  induction n using Nat.strong_induction_on with
  | _ n ih =>
  rcases Nat.eq_zero_or_pos n with rfl | hpos
  · rw [Nat.size_zero]
    rfl
  · have hne : n ≠ 0 := by omega
    rw [bitLen_succ_div hne, ih (n / 2) (by omega)]
    have hbit : Nat.bit (n.testBit 0) (n >>> 1) = n :=
      Nat.bit_testBit_zero_shiftRight_one n
    have hsz : Nat.size n = Nat.size (n >>> 1) + 1 := by
      conv_lhs => rw [← hbit]
      rw [Nat.size_bit (by rw [hbit]; omega)]
    rw [hsz, Nat.shiftRight_eq_div_pow]

/-- The bit loop of `Modulus::pow`: `k` is the number of remaining bit
positions (`k-1` down to `0`), `r` the accumulator; each step squares and
conditionally multiplies by `a` depending on bit `k-1` of `n`. -/
def powLoop (p a n : Nat) : Nat → Nat → Nat
  | 0, r => r
  | k + 1, r =>
      let r1 := mul p r r
      let r2 := if (n >>> k) &&& 1 = 1 then mul p r1 a else r1
      powLoop p a n k r2

/-- `Modulus::pow`: square-and-multiply modular exponentiation.  The loop
starts at bit `62 - n.leading_zeros() = n.size - 2` for `n ≥ 2`, i.e. runs
for `n.size - 1` positions. -/
def pow (p a n : Nat) : Nat :=
  if n = 0 then 1
  else if n = 1 then a
  else powLoop p a n (bitLen n - 1) a

/-- Closed form of the loop: `powLoop p a n k r = r^(2^k) · a^(n mod 2^k) mod p`. -/
theorem powLoop_spec {p a n : Nat} (hp : 2 ≤ p) (hp62 : p < 2 ^ 62) (ha : a < p) :
    ∀ (k : Nat) (r : Nat), r < p →
      powLoop p a n k r = r ^ 2 ^ k * a ^ (n % 2 ^ k) % p := by
  intro k
  induction k with
  | zero =>
    intro r hr
    simp [powLoop, Nat.mod_one, Nat.mod_eq_of_lt hr]
  | succ k ih =>
    intro r hr
    have hmul_lt : ∀ x y, x < p → y < p → mul p x y < p := by
      intro x y hx hy
      rw [mul_spec hp hp62 hx hy]
      exact Nat.mod_lt _ (by omega)
    have hbitmod : (n >>> k) &&& 1 = n / 2 ^ k % 2 := by
      rw [Nat.shiftRight_eq_div_pow, Nat.and_one_is_mod]
    have hmodsucc : n % 2 ^ (k + 1) = n % 2 ^ k + 2 ^ k * (n / 2 ^ k % 2) := by
      rw [Nat.pow_succ, Nat.mod_mul]
    show powLoop p a n k _ = _
    by_cases hbit : (n >>> k) &&& 1 = 1
    · rw [if_pos hbit]
      rw [ih _ (hmul_lt _ _ (hmul_lt _ _ hr hr) ha)]
      rw [mul_spec hp hp62 (hmul_lt _ _ hr hr) ha, mul_spec hp hp62 hr hr]
      have hb1 : n / 2 ^ k % 2 = 1 := by rw [← hbitmod, hbit]
      have hb : n % 2 ^ (k + 1) = n % 2 ^ k + 2 ^ k := by
        rw [hmodsucc, hb1]
        ring
      have hcong : (r * r % p * a % p) ≡ r * r * a [MOD p] := by
        calc (r * r % p * a % p) ≡ r * r % p * a [MOD p] := Nat.mod_modEq _ _
          _ ≡ r * r * a [MOD p] := Nat.ModEq.mul_right a (Nat.mod_modEq _ _)
      have : (r * r % p * a % p) ^ 2 ^ k * a ^ (n % 2 ^ k)
          ≡ r ^ 2 ^ (k + 1) * a ^ (n % 2 ^ (k + 1)) [MOD p] := by
        calc (r * r % p * a % p) ^ 2 ^ k * a ^ (n % 2 ^ k)
            ≡ (r * r * a) ^ 2 ^ k * a ^ (n % 2 ^ k) [MOD p] :=
              Nat.ModEq.mul_right _ (hcong.pow _)
          _ = r ^ 2 ^ (k + 1) * a ^ (n % 2 ^ (k + 1)) := by
              rw [hb, Nat.pow_succ, pow_mul, pow_add, mul_pow, mul_pow]
              ring
      exact this
    · rw [if_neg hbit]
      rw [ih _ (hmul_lt _ _ hr hr), mul_spec hp hp62 hr hr]
      have hb0 : n / 2 ^ k % 2 = 0 := by
        have h2 : n / 2 ^ k % 2 < 2 := Nat.mod_lt _ (by omega)
        rw [hbitmod] at hbit
        omega
      have hb : n % 2 ^ (k + 1) = n % 2 ^ k := by
        rw [hmodsucc, hb0]
        ring
      have : (r * r % p) ^ 2 ^ k * a ^ (n % 2 ^ k)
          ≡ r ^ 2 ^ (k + 1) * a ^ (n % 2 ^ (k + 1)) [MOD p] := by
        calc (r * r % p) ^ 2 ^ k * a ^ (n % 2 ^ k)
            ≡ (r * r) ^ 2 ^ k * a ^ (n % 2 ^ k) [MOD p] :=
              Nat.ModEq.mul_right _ ((Nat.mod_modEq _ _).pow _)
          _ = r ^ 2 ^ (k + 1) * a ^ (n % 2 ^ (k + 1)) := by
              rw [hb, Nat.pow_succ, pow_mul, mul_pow]
              ring
      exact this

/-- `Modulus::pow` computes `a^n mod p` for reduced `a`. -/
theorem pow_spec {p a : Nat} (hp : 2 ≤ p) (hp62 : p < 2 ^ 62) (ha : a < p)
    (n : Nat) : pow p a n = a ^ n % p := by
  unfold pow
  by_cases h0 : n = 0
  · simp [h0, Nat.mod_eq_of_lt (show 1 < p by omega)]
  by_cases h1 : n = 1
  · simp [h0, h1, Nat.mod_eq_of_lt ha]
  simp only [h0, h1, if_false]
  have hn2 : 2 ≤ n := by omega
  have hs2 : 2 ≤ Nat.size n := by
    have : 1 < Nat.size n := Nat.lt_size.mpr (by simpa using hn2)
    omega
  rw [bitLen_eq_size]
  set s := Nat.size n with hs
  rw [powLoop_spec hp hp62 ha _ a ha]
  have hlow : 2 ^ (s - 1) ≤ n := Nat.lt_size.mp (by omega)
  have hhigh : n < 2 ^ s := Nat.lt_size_self n
  have hmod : n % 2 ^ (s - 1) = n - 2 ^ (s - 1) := by
    rw [Nat.mod_eq_sub_mod hlow]
    apply Nat.mod_eq_of_lt
    have : 2 ^ s = 2 * 2 ^ (s - 1) := by
      rw [← Nat.pow_succ']
      congr 1
      omega
    omega
  rw [hmod, ← pow_add]
  congr 2
  omega

/-- Modelled from the spec: `util::is_prime` (the `util` crate is not part of
the excerpt; §4.1 says `inv` "fails returning none if p not prime or a=0").
Plain trial-division primality test. -/
def is_primeB (p : Nat) : Bool :=
  decide (2 ≤ p) && ((List.range (p - 2)).all fun d => decide (p % (d + 2) ≠ 0))

theorem is_primeB_iff {p : Nat} : is_primeB p = true ↔ p.Prime := by
  rw [Nat.prime_def_lt]
  unfold is_primeB
  simp only [Bool.and_eq_true, decide_eq_true_eq, List.all_eq_true, List.mem_range]
  constructor
  · rintro ⟨h2, hnd⟩
    refine ⟨h2, fun m hm hdvd => ?_⟩
    by_contra hm1
    have hm0 : m ≠ 0 := by
      rintro rfl
      rw [Nat.zero_dvd] at hdvd
      omega
    have hm2 : 2 ≤ m := by
      rcases Nat.lt_or_ge m 2 with h | h
      · interval_cases m <;> simp_all
      · exact h
    have := hnd (m - 2) (by omega)
    have : p % m ≠ 0 := by
      have h := hnd (m - 2) (by omega)
      have : m - 2 + 2 = m := by omega
      rwa [this] at h
    exact this (Nat.dvd_iff_mod_eq_zero.mp hdvd)
  · rintro ⟨h2, hmin⟩
    refine ⟨h2, fun d hd => ?_⟩
    intro hmod
    have hdvd : (d + 2) ∣ p := Nat.dvd_iff_mod_eq_zero.mpr hmod
    have := hmin (d + 2) (by omega) hdvd
    omega

/-- `Modulus::inv`: Fermat inversion; `none` when `p` is not prime or `a = 0`. -/
def inv (p a : Nat) : Option Nat :=
  if is_primeB p = false ∨ a = 0 then none else some (pow p a (p - 2))

/-- `Modulus::inv` returns a modular inverse of `a` for prime `p` and
`0 < a < p`. -/
theorem inv_spec {p a : Nat} (hp : p.Prime) (hp62 : p < 2 ^ 62)
    (ha0 : 0 < a) (ha : a < p) :
    ∃ r, inv p a = some r ∧ r < p ∧ r * a % p = 1 := by
  have hp2 : 2 ≤ p := hp.two_le
  have hprim : is_primeB p = true := is_primeB_iff.mpr hp
  refine ⟨pow p a (p - 2), ?_, ?_, ?_⟩
  · unfold inv
    rw [if_neg]
    push_neg
    exact ⟨by simp [hprim], by omega⟩
  · rw [pow_spec hp2 hp62 ha]
    exact Nat.mod_lt _ (by omega)
  · rw [pow_spec hp2 hp62 ha]
    have hnd : ¬ p ∣ a := by
      intro hdvd
      rcases hdvd with ⟨c, rfl⟩
      rcases c with _ | c
      · omega
      · have : p ≤ p * (c + 1) := Nat.le_mul_of_pos_right p (by omega)
        omega
    have hco : a.Coprime p := (Nat.coprime_comm.mp (hp.coprime_iff_not_dvd.mpr hnd))
    have hfermat : a ^ (p - 1) ≡ 1 [MOD p] := by
      have := Nat.ModEq.pow_totient hco
      rwa [Nat.totient_prime hp] at this
    have hstep : a ^ (p - 2) % p * a ≡ a ^ (p - 1) [MOD p] := by
      calc a ^ (p - 2) % p * a ≡ a ^ (p - 2) * a [MOD p] :=
            Nat.ModEq.mul_right a (Nat.mod_modEq _ _)
        _ = a ^ (p - 1) := by
            rw [← pow_succ]
            congr 1
            omega
    have := hstep.trans hfermat
    have h1 : 1 % p = 1 := Nat.mod_eq_of_lt (by omega)
    rw [Nat.ModEq] at this
    rw [this, h1]

end Modulus

/-! ## CRT reconstruction and the RNS scaler -/

namespace Rns

/-- `v` realizes the residue vector `r` over the basis `B`. -/
def residuesMatch (B r : List Nat) (v : Nat) : Bool :=
  decide (B.length = r.length) &&
    (B.zip r).all fun pr => decide (v % pr.1 = pr.2)

/-- Modelled from the spec: (§4.3, §2) CRT reconstruction of the integer
realized by a residue vector over an RNS basis (`RnsContext::lift` /
Garner's algorithm; the `math::rns` module is not part of the excerpt).
Defined as the least `v < ∏B` matching every residue. -/
def crtLift (B r : List Nat) : Nat :=
  (((List.range B.prod).find? fun v => residuesMatch B r v).getD 0)

theorem residuesMatch_iff {B r : List Nat} {v : Nat} :
    residuesMatch B r v = true ↔
      B.length = r.length ∧ ∀ pr ∈ B.zip r, v % pr.1 = pr.2 := by
  unfold residuesMatch
  simp

/-- Any two values below `∏B` with equal residues over a pairwise-coprime
basis are equal. -/
theorem crt_unique {B : List Nat} (hco : B.Pairwise Nat.Coprime) {u v : Nat}
    (hu : u < B.prod) (hv : v < B.prod) (h : ∀ p ∈ B, u % p = v % p) : u = v := by
  have hmod : u ≡ v [MOD B.prod] := by
    rw [Nat.modEq_list_prod_iff hco]
    intro i
    exact h _ (List.get_mem B i.1 i.2)
  rw [Nat.ModEq, Nat.mod_eq_of_lt hu, Nat.mod_eq_of_lt hv] at hmod
  exact hmod

/-- CRT existence: every reduced residue vector over a pairwise-coprime basis
is realized by some value below the product. -/
theorem crt_exists : ∀ (B r : List Nat), B.Pairwise Nat.Coprime →
    (∀ p ∈ B, 0 < p) → List.Forall₂ (fun p x => x < p) B r →
    ∃ v, v < B.prod ∧ List.Forall₂ (fun p x => v % p = x) B r := by
  intro B
  induction B with
  | nil =>
    intro r _ _ hred
    cases hred
    exact ⟨0, by simp, List.Forall₂.nil⟩
  | cons p B' ih =>
    intro r hco hpos hred
    cases r with
    | nil => cases hred
    | cons x r' =>
    rcases hred with _ | ⟨hx, hred'⟩
    obtain ⟨v', hv'lt, hv'⟩ := ih r' (List.Pairwise.of_cons hco)
      (fun q hq => hpos q (List.mem_cons_of_mem _ hq)) hred'
    have hppos : 0 < p := hpos p (List.mem_cons_self _ _)
    have hprodpos : 0 < B'.prod := by
      apply List.prod_pos
      intro q hq
      exact hpos q (List.mem_cons_of_mem _ hq)
    have hcop : p.Coprime B'.prod := by
      rw [Nat.coprime_list_prod_right_iff]
      intro q hq
      exact (List.pairwise_cons.mp hco).1 q hq
    obtain ⟨k, hk1, hk2⟩ := Nat.chineseRemainder hcop x v'
    refine ⟨k % (p * B'.prod), ?_, ?_⟩
    · rw [List.prod_cons]
      exact Nat.mod_lt _ (by positivity)
    · constructor
      · rw [Nat.mod_mod_of_dvd _ ⟨B'.prod, rfl⟩]
        rw [Nat.ModEq] at hk1
        rw [hk1, Nat.mod_eq_of_lt hx]
      · have hforall : ∀ q ∈ B', k % q = v' % q := by
          intro q hq
          have hdvd : q ∣ B'.prod := List.dvd_prod hq
          rw [Nat.ModEq] at hk2
          calc k % q = k % B'.prod % q := (Nat.mod_mod_of_dvd _ hdvd).symm
            _ = v' % B'.prod % q := by rw [hk2]
            _ = v' % q := Nat.mod_mod_of_dvd _ hdvd
        have hz := List.forall₂_iff_zip.mp hv'
        apply List.forall₂_iff_zip.mpr
        refine ⟨hz.1, ?_⟩
        intro a b hab
        have haB : a ∈ B' := (List.of_mem_zip hab).1
        calc k % (p * B'.prod) % a = k % a := by
              have hdvd : a ∣ p * B'.prod := Dvd.dvd.mul_left (List.dvd_prod haB) p
              exact Nat.mod_mod_of_dvd _ hdvd
          _ = v' % a := hforall a haB
          _ = b := hz.2 hab

/-- `crtLift` is correct: its value is below the product and realizes every
residue. -/
theorem crtLift_spec {B r : List Nat} (hco : B.Pairwise Nat.Coprime)
    (hpos : ∀ p ∈ B, 0 < p) (hred : List.Forall₂ (fun p x => x < p) B r) :
    crtLift B r < B.prod ∧ List.Forall₂ (fun p x => crtLift B r % p = x) B r := by
  obtain ⟨v, hvlt, hv⟩ := crt_exists B r hco hpos hred
  have hvzip := List.forall₂_iff_zip.mp hv
  have hmatch : residuesMatch B r v = true := by
    rw [residuesMatch_iff]
    refine ⟨hvzip.1, ?_⟩
    rintro ⟨a, b⟩ hpr
    exact hvzip.2 hpr
  have hfind : ((List.range B.prod).find? fun u => residuesMatch B r u) = some v := by
    have hsome : ((List.range B.prod).find? fun u => residuesMatch B r u).isSome := by
      rw [List.find?_isSome]
      exact ⟨v, List.mem_range.mpr hvlt, hmatch⟩
    obtain ⟨w, hw⟩ := Option.isSome_iff_exists.mp hsome
    have hwmem := List.mem_of_find?_eq_some hw
    have hwmatch := List.find?_some hw
    rw [residuesMatch_iff] at hwmatch
    have hwlt : w < B.prod := List.mem_range.mp hwmem
    have hweq : w = v := by
      apply crt_unique hco hwlt hvlt
      intro p hp
      obtain ⟨i, hi⟩ := List.mem_iff_get.mp hp
      have hlen : B.length = r.length := hwmatch.1
      have hpzip : (p, r.get ⟨i, by omega⟩) ∈ B.zip r := by
        rw [← hi]
        apply List.mem_iff_get.mpr
        refine ⟨⟨i, by
          rw [List.length_zip]
          omega⟩, ?_⟩
        simp [List.getElem_zip]
      rw [hwmatch.2 _ hpzip]
      exact (hvzip.2 hpzip).symm
    rw [hw, hweq]
  rw [crtLift, hfind]
  exact ⟨hvlt, by simpa using hv⟩

/-- `crtLift` inverts taking residues: lifting `(v mod p)_{p ∈ B}` returns `v`. -/
theorem crtLift_map {B : List Nat} {v : Nat} (hco : B.Pairwise Nat.Coprime)
    (hpos : ∀ p ∈ B, 0 < p) (hv : v < B.prod) :
    crtLift B (B.map (v % ·)) = v := by
  have hred : List.Forall₂ (fun p x => x < p) B (B.map (v % ·)) := by
    rw [List.forall₂_map_right_iff]
    apply List.forall₂_same.mpr
    intro p hp
    exact Nat.mod_lt _ (hpos p hp)
  obtain ⟨hlt, hres⟩ := crtLift_spec hco hpos hred
  apply crt_unique hco hlt hv
  intro p hp
  rw [List.forall₂_map_right_iff] at hres
  exact (List.forall₂_same.mp hres) p hp

/-- Round-to-nearest division `round(a / b)` (ties rounded up):
`⌊(2a + b) / 2b⌋`. -/
def roundDiv (a b : Nat) : Nat := (2 * a + b) / (2 * b)

/-- Modelled from the spec: (§4.4) the per-coefficient action of the RNS
`Scaler` (`math::rq::scaler` is not part of the excerpt): reconstruct the
coefficient's value from its residues over the source basis by CRT, apply the
rational factor `num/den` with rounding to the nearest integer, and reduce
modulo the destination modulus `q`. -/
def scaleCoeff (B r : List Nat) (num den q : Nat) : Nat :=
  roundDiv (crtLift B r * num) den % q

/-- The reference big-integer computation of §4.4/§8: `round(value·num/den)`
on the exact CRT-reconstructed integer. -/
def refScale (v num den : Nat) : Nat := roundDiv (v * num) den

end Rns

/-! ## Delta computation in `BfvParametersBuilder::build`
(`src/crates/bfv/src/parameters.rs`, lines 236-250) -/

namespace Params

/-- The per-modulus residues of `delta` computed in `build`:
`delta_rests.push(q.inv(q.neg(plaintext_modulus.modulus())).unwrap())`.
`none` models the `unwrap` panic. -/
def delta_rests (moduli : List Nat) (t : Nat) : Option (List Nat) :=
  moduli.mapM fun m => Modulus.inv m (Modulus.neg m t)

/-- The integer value of the constant polynomial `delta` stored by `build`:
the CRT lift (`rns.lift`) of `delta_rests` (the code comment says
`-1/t mod Q`). -/
def deltaValue (moduli : List Nat) (t : Nat) : Option Nat :=
  (delta_rests moduli t).map (Rns.crtLift moduli)

/-- Each residue `r` of `delta` satisfies `r·t ≡ -1 (mod m)`. -/
theorem delta_rests_spec {moduli : List Nat} {t : Nat}
    (hprime : ∀ m ∈ moduli, m.Prime ∧ m < 2 ^ 62)
    (ht : 0 < t) (htlt : ∀ m ∈ moduli, t < m) :
    ∃ rs, delta_rests moduli t = some rs ∧
      List.Forall₂ (fun m r => r < m ∧ (r * t + 1) % m = 0) moduli rs := by
  induction moduli with
  | nil => exact ⟨[], rfl, List.Forall₂.nil⟩
  | cons m ms ih =>
    obtain ⟨hm, hm62⟩ := hprime m (List.mem_cons_self _ _)
    have hmt : t < m := htlt m (List.mem_cons_self _ _)
    have hm2 : 2 ≤ m := hm.two_le
    have hneg : Modulus.neg m t = m - t := by
      rw [Modulus.neg_spec hm2 hm62 hmt]
      exact Nat.mod_eq_of_lt (by omega)
    obtain ⟨r, hr, hrlt, hrinv⟩ :=
      Modulus.inv_spec hm hm62 (show 0 < m - t by omega) (show m - t < m by omega)
    obtain ⟨rs, hrs, hrsl⟩ := ih (fun q hq => hprime q (List.mem_cons_of_mem _ hq))
      (fun q hq => htlt q (List.mem_cons_of_mem _ hq))
    refine ⟨r :: rs, ?_, ?_⟩
    · unfold delta_rests at hrs ⊢
      rw [List.mapM_cons, hneg, hr, hrs]
      rfl
    · refine List.Forall₂.cons ⟨hrlt, ?_⟩ hrsl
      -- `r(m-t) ≡ 1` hence `rt + 1 ≡ r(m-t) + rt = rm ≡ 0 (mod m)`
      have hsum : r * (m - t) + r * t = r * m := by
        rw [← Nat.mul_add]
        congr 1
        omega
      have h1 : (r * (m - t) + r * t) % m = 0 := by
        rw [hsum]
        exact Nat.mul_mod_left r m
      have hone : (1 : Nat) % m = 1 := Nat.mod_eq_of_lt (by omega)
      have hcong : r * (m - t) ≡ 1 [MOD m] := by
        rw [Nat.ModEq, hone, hrinv]
      have h2 : (r * (m - t) + r * t) % m = (1 + r * t) % m :=
        Nat.ModEq.add_right (r * t) hcong
      have h3 : (1 + r * t) % m = 0 := by rw [← h2, h1]
      rwa [Nat.add_comm] at h3

/-- If every element of a pairwise-coprime list divides `N`, so does the
product. -/
theorem list_prod_dvd {B : List Nat} (hco : B.Pairwise Nat.Coprime) {N : Nat}
    (h : ∀ p ∈ B, p ∣ N) : B.prod ∣ N := by
  induction B with
  | nil => simp
  | cons m ms ih =>
    rw [List.prod_cons]
    have hcop : m.Coprime ms.prod := by
      rw [Nat.coprime_list_prod_right_iff]
      intro q hq
      exact (List.pairwise_cons.mp hco).1 q hq
    exact Nat.Coprime.mul_dvd_of_dvd_of_dvd hcop
      (h m (List.mem_cons_self _ _))
      (ih (List.Pairwise.of_cons hco)
        (fun q hq => h q (List.mem_cons_of_mem _ hq)))

/-- The value of `delta` computed by `build` is the element `-t⁻¹ mod Q`:
it is below `Q = ∏ moduli` and satisfies `delta · t ≡ -1 (mod Q)`. -/
theorem deltaValue_spec {moduli : List Nat} {t : Nat}
    (hco : moduli.Pairwise Nat.Coprime)
    (hprime : ∀ m ∈ moduli, m.Prime ∧ m < 2 ^ 62)
    (ht : 0 < t) (htlt : ∀ m ∈ moduli, t < m) :
    ∃ d, deltaValue moduli t = some d ∧ d < moduli.prod ∧
      d * t % moduli.prod = moduli.prod - 1 := by
  obtain ⟨rs, hrs, hrsl⟩ := delta_rests_spec hprime ht htlt
  have hpos : ∀ m ∈ moduli, 0 < m := fun m hm => (hprime m hm).1.pos
  have hred : List.Forall₂ (fun p x => x < p) moduli rs := by
    apply List.forall₂_iff_zip.mpr
    have hz := List.forall₂_iff_zip.mp hrsl
    exact ⟨hz.1, fun hab => (hz.2 hab).1⟩
  obtain ⟨hdlt, hdres⟩ := Rns.crtLift_spec hco hpos hred
  set d := Rns.crtLift moduli rs with hd
  refine ⟨d, by rw [deltaValue, hrs]; rfl, hdlt, ?_⟩
  have hdvd : ∀ m ∈ moduli, m ∣ d * t + 1 := by
    intro m hm
    -- find the residue paired with `m`
    have hz1 := List.forall₂_iff_zip.mp hdres
    have hz2 := List.forall₂_iff_zip.mp hrsl
    obtain ⟨i, hi⟩ := List.mem_iff_get.mp hm
    have hlen : moduli.length = rs.length := hz1.1
    have hpzip : (m, rs.get ⟨i.1, by omega⟩) ∈ moduli.zip rs := by
      rw [← hi]
      apply List.mem_iff_get.mpr
      refine ⟨⟨i.1, by
        rw [List.length_zip]
        omega⟩, ?_⟩
      simp [List.getElem_zip]
    have hres : d % m = rs.get ⟨i.1, by omega⟩ := hz1.2 hpzip
    have hprop : rs.get ⟨i.1, by omega⟩ < m ∧
        (rs.get ⟨i.1, by omega⟩ * t + 1) % m = 0 := hz2.2 hpzip
    have hcong : d ≡ rs.get ⟨i.1, by omega⟩ [MOD m] := by
      rw [Nat.ModEq, hres, Nat.mod_eq_of_lt hprop.1]
    have hmod : (d * t + 1) % m = (rs.get ⟨i.1, by omega⟩ * t + 1) % m :=
      Nat.ModEq.add_right 1 (Nat.ModEq.mul_right t hcong)
    rw [Nat.dvd_iff_mod_eq_zero, hmod, hprop.2]
  have hproddvd : moduli.prod ∣ d * t + 1 := list_prod_dvd hco hdvd
  have hprodpos : 0 < moduli.prod := List.prod_pos hpos
  obtain ⟨c, hc⟩ := hproddvd
  have hcpos : 0 < c := by
    rcases Nat.eq_zero_or_pos c with rfl | h
    · rw [Nat.mul_zero] at hc
      omega
    · exact h
  have hc' : c = (c - 1) + 1 := by omega
  rw [hc', Nat.mul_add, Nat.mul_one] at hc
  have hsplit : d * t = (moduli.prod - 1) + moduli.prod * (c - 1) := by omega
  rw [hsplit, Nat.add_mul_mod_self_left]
  exact Nat.mod_eq_of_lt (by omega)

end Params

/-! ## Ciphertext algebra (`src/crates/bfv/src/ciphertext.rs`) -/

namespace Bfv

/-- The data of `BfvParameters` consulted by the ciphertext operators
(`PartialEq` on `BfvParameters` compares the full structure; the derived
objects are determined by these fields). -/
structure BfvParams where
  polynomial_degree : Nat
  plaintext_modulus : Nat
  ciphertext_moduli : List Nat
  variance : Nat
deriving DecidableEq

/-- The per-limb ring-element operations of the `math::rq` layer, abstracted:
the ciphertext operators apply them limb-wise. -/
structure PolyOps (P : Type) where
  padd : P → P → P
  psub : P → P → P
  pneg : P → P
  pmul : P → P → P
  zero : P

/-- The limb-vector `Ciphertext` (the authoritative design per §9):
parameters reference, optional PRNG seed, limbs, minimized flag. -/
structure Ciphertext (P : Type) where
  par : BfvParams
  seed : Option Nat
  c : List P
  minimized : Bool

/-- `Ciphertext::zero`. -/
def zeroCt (P : Type) (par : BfvParams) : Ciphertext P :=
  { par := par, seed := none, c := [], minimized := false }

/-- `Ciphertext::minimizes`: set the `minimized` flag and rescale every limb
with the parameters' `modswitch` scaler (whose per-limb action is the
abstracted `modswitch`; its `unwrap` never fails per §4.4). -/
def minimizes {P : Type} (modswitch : P → P) (ct : Ciphertext P) : Ciphertext P :=
  { ct with minimized := true, c := ct.c.map modswitch }

/-- `AddAssign<&Ciphertext> for Ciphertext`; the `assert!`/`assert_eq!`
panics are modelled as `none`. -/
def addAssign {P : Type} (ops : PolyOps P) (self rhs : Ciphertext P) :
    Option (Ciphertext P) :=
  if self.par ≠ rhs.par then none
  else if self.minimized ∨ rhs.minimized then none
  else if self.c.isEmpty then some rhs
  else if self.c.length ≠ rhs.c.length then none
  else some { self with c := List.zipWith ops.padd self.c rhs.c, seed := none }

/-- `Neg for &Ciphertext`. -/
def negCt {P : Type} (ops : PolyOps P) (ct : Ciphertext P) : Option (Ciphertext P) :=
  if ct.minimized then none
  else some { par := ct.par, seed := none, c := ct.c.map ops.pneg, minimized := false }

/-- `SubAssign<&Ciphertext> for Ciphertext`; an empty accumulator becomes
`-rhs`. -/
def subAssign {P : Type} (ops : PolyOps P) (self rhs : Ciphertext P) :
    Option (Ciphertext P) :=
  if self.par ≠ rhs.par then none
  else if self.minimized ∨ rhs.minimized then none
  else if self.c.isEmpty then negCt ops rhs
  else if self.c.length ≠ rhs.c.length then none
  else some { self with c := List.zipWith ops.psub self.c rhs.c, seed := none }

/-- The `Plaintext` fields used by `MulAssign<&Plaintext>`. -/
structure PlaintextM (P : Type) where
  par : BfvParams
  poly_ntt : P

/-- `MulAssign<&Plaintext> for Ciphertext`. -/
def mulPlaintextAssign {P : Type} (pmulPt : P → P → P) (self : Ciphertext P)
    (rhs : PlaintextM P) : Option (Ciphertext P) :=
  if self.par ≠ rhs.par then none
  else if self.minimized then none
  else
    let cnew := self.c.map fun ci => pmulPt ci rhs.poly_ntt
    some { self with c := cnew, seed := none }

/-- Update position `k` of a list in place. -/
def updAt {P : Type} (l : List P) (k : Nat) (f : P → P) : List P :=
  l.mapIdx fun idx x => if idx = k then f x else x

/-- The tensor accumulation loop of `Mul<&Ciphertext>`:
`c[i+j] += self_c[i] * other_c[j]` over a zero-initialized vector of length
`self_c.len + other_c.len - 1`. -/
def tensorAcc {P : Type} (ops : PolyOps P) (self_c other_c : List P) : List P :=
  (List.range self_c.length).foldl
    (fun c i =>
      (List.range other_c.length).foldl
        (fun c j =>
          updAt c (i + j) fun x =>
            ops.padd x (ops.pmul (self_c.getD i ops.zero) (other_c.getD j ops.zero)))
        c)
    (List.replicate (self_c.length + other_c.length - 1) ops.zero)

/-- `Mul<&Ciphertext> for &Ciphertext`: the relinearization-free tensor
product.  `ext1` is the per-limb action of `mul_1_params.extender_self`
(used on both operands, as in the source), `toPB`/`toNtt` the representation
changes and `down` the `mul_1_params.down_scaler`. -/
def mulCt {P : Type} (ops : PolyOps P) (ext1 toPB down toNtt : P → P)
    (self rhs : Ciphertext P) : Option (Ciphertext P) :=
  if self.par ≠ rhs.par then none
  else if self.minimized ∨ rhs.minimized then none
  else
    let self_c := self.c.map ext1
    let other_c := rhs.c.map ext1
    let c := tensorAcc ops self_c other_c
    let c := c.map fun ci => toNtt (down (toPB ci))
    some { par := self.par, seed := none, c := c, minimized := false }

/-- Modelled from the spec: (§4.6/§4.7) the slice of `EvaluationKey`
consulted by `mul_internal` — `supports_relinearization()` and the
relinearization action itself.  The evaluation-key implementation is not
part of the excerpt; given that the key supports relinearization, folding
`(c0, c1, c2)` into a two-limb pair is total. -/
structure EvalKey (P : Type) where
  supports_relin : Bool
  relin : P → P → P → P × P

/-- Modelled from the spec: (§4.4) the scalers and representation changes
bundled in `MultiplicationParameters`, abstracted per-limb;
`Scaler::scale` (not part of the excerpt) is total on well-formed ring
elements. -/
structure MulParams (P : Type) where
  extender_self : P → P
  extender_other : P → P
  down_scaler : P → P
  toPowerBasis : P → P
  toNtt : P → P

/-- `mul_internal`: guarded relinearizing multiplication.  `mul` calls it
with `par.mul_1_params`, `mul2` with `par.mul_2_params`. -/
def mul_internal {P : Type} (ops : PolyOps P) (ct0 ct1 : Ciphertext P)
    (ek : EvalKey P) (mp : MulParams P) : Except String (Ciphertext P) :=
  if ek.supports_relin = false then
    .error "The evaluation key does not support relinearization"
  else if ct0.par ≠ ct1.par then
    .error "Incompatible parameters"
  else if ct0.minimized ∨ ct1.minimized then
    .error "A ciphertext is minimized and cannot be operated on"
  else if ct0.par.ciphertext_moduli.length = 1 then
    .error "Parameters do not allow for multiplication"
  else if ct0.c.length ≠ 2 ∨ ct1.c.length ≠ 2 then
    .error "Multiplication can only be performed on ciphertexts of size 2"
  else
    let c00 := mp.extender_self (ct0.c.getD 0 ops.zero)
    let c01 := mp.extender_self (ct0.c.getD 1 ops.zero)
    let c10 := mp.extender_other (ct1.c.getD 0 ops.zero)
    let c11 := mp.extender_other (ct1.c.getD 1 ops.zero)
    let c0 := ops.pmul c00 c10
    let c1 := ops.padd (ops.pmul c00 c11) (ops.pmul c01 c10)
    let c2 := ops.pmul c01 c11
    let c0 := mp.down_scaler (mp.toPowerBasis c0)
    let c1 := mp.down_scaler (mp.toPowerBasis c1)
    let c2 := mp.down_scaler (mp.toPowerBasis c2)
    let out := ek.relin (mp.toNtt c0) (mp.toNtt c1) c2
    .ok { par := ct0.par, seed := none, c := [out.1, out.2], minimized := false }

/-- Modelled from the spec: (§4.6) the limb-vector design's decryption
"fails if parameter sets mismatch" and is the one operation that remains
valid on a minimized ciphertext; only its guard is modelled. -/
def decryptGuard {P : Type} (skPar : BfvParams) (ct : Ciphertext P) :
    Except String Unit :=
  if skPar ≠ ct.par then .error "Incompatible BFV parameters" else .ok ()

/-- `Except.isOk` as a Bool test. -/
def exceptOk {ε α : Type} : Except ε α → Bool
  | .ok _ => true
  | .error _ => false

theorem exceptOk_error {ε α : Type} (e : ε) :
    exceptOk (Except.error e : Except ε α) = false := rfl

theorem exceptOk_ok {ε α : Type} (a : α) :
    exceptOk (Except.ok a : Except ε α) = true := rfl

end Bfv

/-! ## Parameter builder (`src/crates/bfv/src/parameters.rs`) -/

namespace Params

/-- `usize::is_power_of_two`: true iff the value is `2^k` for some `k`
(the documented contract of the Rust intrinsic); decided via `Nat.size`. -/
def is_power_of_two (n : Nat) : Bool :=
  decide (0 < n) && decide (n = 2 ^ (n.size - 1))

theorem is_power_of_two_iff {n : Nat} :
    is_power_of_two n = true ↔ ∃ k, n = 2 ^ k := by
  unfold is_power_of_two
  simp only [Bool.and_eq_true, decide_eq_true_eq]
  constructor
  · rintro ⟨-, h⟩
    exact ⟨_, h⟩
  · rintro ⟨k, rfl⟩
    refine ⟨by positivity, ?_⟩
    rw [Nat.size_pow]
    simp

/-- `BfvParametersBuilder`. -/
structure Builder where
  degree : Nat
  plaintext : Nat
  variance : Nat
  ciphertext_moduli : List Nat
  ciphertext_moduli_sizes : List Nat
deriving DecidableEq

/-- `BfvParametersBuilder::new`: `Default::default()` fields except
`variance: 1`. -/
def Builder.new : Builder :=
  { degree := 0, plaintext := 0, variance := 1,
    ciphertext_moduli := [], ciphertext_moduli_sizes := [] }

/-- `set_degree`: the `&mut self` setter returns the (possibly unchanged)
builder plus the error, modelling the early-return on invalid input. -/
def set_degree (b : Builder) (degree : Nat) : Builder × Option String :=
  if degree < 8 ∨ is_power_of_two degree = false then
    (b, some "The degree should be a power of two larger or equal to 8")
  else ({ b with degree := degree }, none)

/-- `set_plaintext_modulus`: delegates validation to `Modulus::new`, which
rejects `p < 2` and `p ≥ 2^62` (message per the builder test). -/
def set_plaintext_modulus (b : Builder) (plaintext : Nat) : Builder × Option String :=
  if plaintext < 2 ∨ 2 ^ 62 ≤ plaintext then
    (b, some "modulus should be between 2 and 2^62-1")
  else ({ b with plaintext := plaintext }, none)

/-- `set_ciphertext_moduli_sizes`. -/
def set_ciphertext_moduli_sizes (b : Builder) (sizes : List Nat) :
    Builder × Option String :=
  if b.ciphertext_moduli ≠ [] then
    (b, some "The set of ciphertext moduli is already specified")
  else ({ b with ciphertext_moduli_sizes := sizes }, none)

/-- `set_ciphertext_moduli`. -/
def set_ciphertext_moduli (b : Builder) (moduli : List Nat) :
    Builder × Option String :=
  if b.ciphertext_moduli_sizes ≠ [] then
    (b, some "The set of ciphertext moduli sizes is already specified")
  else ({ b with ciphertext_moduli := moduli }, none)

/-- `set_variance`. -/
def set_variance (b : Builder) (variance : Nat) : Builder × Option String :=
  if variance < 1 ∨ 16 < variance then
    (b, some "The variance must be in 1..=16")
  else ({ b with variance := variance }, none)

/-- Modelled from the spec: (§4.5) `nfl::generate_prime(size, m, upper_bound)`
(the `nfl` module is not part of the excerpt): "search from 2^size downward
for the largest prime ≡ 1 mod 2n"; the largest prime `< upper_bound` of the
requested bit size that is `≡ 1 (mod m)`, or `none`. -/
def generate_prime (size m : Nat) : Nat → Option Nat
  | 0 => none
  | ub + 1 =>
    if 2 ^ (size - 1) ≤ ub ∧ ub % m = 1 ∧ Modulus.is_primeB ub = true then some ub
    else generate_prime size m ub

theorem generate_prime_lt {size m : Nat} :
    ∀ {ub prime : Nat}, generate_prime size m ub = some prime → prime < ub := by
  intro ub
  induction ub with
  | zero =>
    intro prime h
    simp [generate_prime] at h
  | succ ub ih =>
    intro prime h
    rw [generate_prime] at h
    split at h
    · cases h
      omega
    · have := ih h
      omega

/-- The inner `loop` of `generate_moduli`: retry `generate_prime` with a
lowered upper bound while the found prime is a duplicate.  The loop
terminates because each retry strictly lowers the bound
(`generate_prime_lt`); `fuel = ub` steps therefore always suffice, and when
the fuel would run out the bound is `0`, where `generate_prime` fails with
the same error the loop reports. -/
def findFreshPrimeAux (size m : Nat) (moduli : List Nat) :
    Nat → Nat → Except String Nat
  | 0, _ =>
    .error "Could not generate enough ciphertext moduli to match the sizes provided"
  | fuel + 1, ub =>
    match generate_prime size m ub with
    | none =>
      .error "Could not generate enough ciphertext moduli to match the sizes provided"
    | some prime =>
      if prime ∈ moduli then findFreshPrimeAux size m moduli fuel prime
      else .ok prime

/-- The inner `loop` of `generate_moduli` starting at `upper_bound = ub`. -/
def findFreshPrime (size m : Nat) (moduli : List Nat) (ub : Nat) :
    Except String Nat :=
  findFreshPrimeAux size m moduli ub ub

/-- The fold of `generate_moduli` over the requested sizes. -/
def genModuliGo (degree : Nat) : List Nat → List Nat → Except String (List Nat)
  | moduli, [] => .ok moduli
  | moduli, size :: rest =>
    if 62 < size ∨ size < 10 then
      .error "The moduli sizes must be between 10 and 62 bits."
    else
      match findFreshPrime size (2 * degree) moduli (2 ^ size) with
      | .error e => .error e
      | .ok prime => genModuliGo degree (moduli ++ [prime]) rest

/-- `BfvParametersBuilder::generate_moduli`. -/
def generate_moduli (sizes : List Nat) (degree : Nat) : Except String (List Nat) :=
  genModuliGo degree [] sizes

/-- The validation prefix of `BfvParametersBuilder::build` (lines 205-217):
the unspecified-field checks and the moduli generation, returning the moduli
the rest of `build` works with; the later construction steps are modelled
separately (`deltaValue`, the scaler model). -/
def build_validate (b : Builder) : Except String (List Nat) :=
  if b.degree = 0 then .error "Unspecified degree"
  else if b.plaintext = 0 then .error "Unspecified plaintext modulus"
  else if b.ciphertext_moduli = [] ∧ b.ciphertext_moduli_sizes = [] then
    .error "Unspecified ciphertext moduli"
  else if b.ciphertext_moduli_sizes ≠ [] then
    generate_moduli b.ciphertext_moduli_sizes b.degree
  else .ok b.ciphertext_moduli

end Params

/-! ## Serialization (`Modulus::serialize_vec` / `deserialize_vec`) -/

namespace Ser

/-- Little-endian bit decomposition of width `n`. -/
def toBits : Nat → Nat → List Bool
  | 0, _ => []
  | n + 1, x => decide (x % 2 = 1) :: toBits n (x / 2)

/-- Recompose a little-endian bit list. -/
def fromBits : List Bool → Nat
  | [] => 0
  | b :: t => (if b then 1 else 0) + 2 * fromBits t

/-- Fuel-driven chunking loop (`fuel ≥ l.length` always suffices since each
step drops at least one element). -/
def chunkListAux {α : Type} (k : Nat) : Nat → List α → List (List α)
  | 0, _ => []
  | fuel + 1, l =>
    if 0 < k ∧ k ≤ l.length then l.take k :: chunkListAux k fuel (l.drop k)
    else []

/-- Split a list into consecutive chunks of size `k`, keeping only full
chunks. -/
def chunkList {α : Type} (k : Nat) (l : List α) : List (List α) :=
  chunkListAux k l.length l

theorem chunkListAux_nil {α : Type} (k : Nat) :
    ∀ (f : Nat), chunkListAux k f ([] : List α) = [] := by
  intro f
  cases f with
  | zero => rfl
  | succ f =>
    show (if 0 < k ∧ k ≤ ([] : List α).length then _ else []) = []
    rw [if_neg (by
      simp only [List.length_nil]
      omega)]

theorem chunkListAux_congr {α : Type} (k : Nat) :
    ∀ (f1 : Nat) (f2 : Nat) (l : List α), l.length ≤ f1 → l.length ≤ f2 →
      chunkListAux k f1 l = chunkListAux k f2 l := by
  intro f1
  induction f1 with
  | zero =>
    intro f2 l h1 h2
    have hl : l = [] := List.eq_nil_of_length_eq_zero (by omega)
    subst hl
    rw [chunkListAux_nil, chunkListAux_nil]
  | succ f1 ih =>
    intro f2 l h1 h2
    cases f2 with
    | zero =>
      have hl : l = [] := List.eq_nil_of_length_eq_zero (by omega)
      subst hl
      rw [chunkListAux_nil, chunkListAux_nil]
    | succ f2 =>
      show (if 0 < k ∧ k ≤ l.length then _ else [])
        = (if 0 < k ∧ k ≤ l.length then _ else [])
      by_cases hc : 0 < k ∧ k ≤ l.length
      · rw [if_pos hc, if_pos hc]
        have hd : (l.drop k).length = l.length - k := List.length_drop k l
        rw [ih f2 (l.drop k) (by omega) (by omega)]
      · rw [if_neg hc, if_neg hc]

/-- The recursion equation of `chunkList`. -/
theorem chunkList_eq {α : Type} (k : Nat) (l : List α) :
    chunkList k l =
      if 0 < k ∧ k ≤ l.length then l.take k :: chunkList k (l.drop k) else [] := by
  rcases hn : l.length with _ | n
  · have hl : l = [] := List.eq_nil_of_length_eq_zero hn
    subst hl
    have hfalse : ¬(0 < k ∧ k ≤ 0) := by omega
    rw [chunkList, chunkListAux_nil, if_neg hfalse]
  · have hstep : chunkList k l = chunkListAux k (n + 1) l := by
      rw [chunkList, hn]
    rw [hstep]
    show (if 0 < k ∧ k ≤ l.length then l.take k :: chunkListAux k n (l.drop k)
      else []) = _
    by_cases hc : 0 < k ∧ k ≤ l.length
    · have hc2 : 0 < k ∧ k ≤ n + 1 := ⟨hc.1, by
        have := hc.2
        omega⟩
      rw [if_pos hc, if_pos hc2]
      have hd : (l.drop k).length = l.length - k := List.length_drop k l
      have heq : chunkList k (l.drop k) = chunkListAux k n (l.drop k) := by
        rw [chunkList]
        exact chunkListAux_congr k ((l.drop k).length) n (l.drop k)
          (le_refl _) (by omega)
      rw [heq]
    · have hc2 : ¬(0 < k ∧ k ≤ n + 1) := by
        intro h
        exact hc ⟨h.1, by
          have := h.2
          omega⟩
      rw [if_neg hc, if_neg hc2]

/-- Modelled from the spec: (§6) limbs are "transcoded … into a bit-packed
byte buffer sized to each modulus's bit length"; `util::transcode_forward`
is not part of the excerpt): pack the low `nbits` bits of every element into
a byte stream. -/
def transcode_forward (a : List Nat) (nbits : Nat) : List Nat :=
  (chunkList 8 (a.map (toBits nbits)).flatten).map fromBits

/-- Modelled from the spec: `util::transcode_backward`, the inverse
unpacking. -/
def transcode_backward (b : List Nat) (nbits : Nat) : List Nat :=
  (chunkList nbits (b.map (toBits 8)).flatten).map fromBits

/-- `Modulus::serialize_vec` with `p_nbits = 64 − (p−1).leading_zeros()`;
the documented panic for a length that is not a multiple of 8 (doc comment
on `serialize_vec`, `assert!` in `serialization_length`) is `none`. -/
def serialize_vec (p : Nat) (a : List Nat) : Option (List Nat) :=
  if a.length % 8 = 0 then some (transcode_forward a (p - 1).size) else none

/-- `Modulus::deserialize_vec`. -/
def deserialize_vec (p : Nat) (b : List Nat) : List Nat :=
  transcode_backward b (p - 1).size

theorem toBits_length (n x : Nat) : (toBits n x).length = n := by
  induction n generalizing x with
  | zero => rfl
  | succ n ih => simp [toBits, ih]

theorem fromBits_toBits (n x : Nat) : fromBits (toBits n x) = x % 2 ^ n := by
  induction n generalizing x with
  | zero => simp [toBits, fromBits, Nat.mod_one]
  | succ n ih =>
    rw [toBits, fromBits, ih]
    have hsplit : x % (2 * 2 ^ n) = x % 2 + 2 * (x / 2 % 2 ^ n) := Nat.mod_mul
    have hpow : (2 : Nat) ^ (n + 1) = 2 * 2 ^ n := by rw [Nat.pow_succ']
    rw [hpow, hsplit]
    have h2 := Nat.mod_two_eq_zero_or_one x
    rcases h2 with h | h <;> simp [h]

theorem toBits_fromBits : ∀ (l : List Bool), toBits l.length (fromBits l) = l := by
  intro l
  induction l with
  | nil => rfl
  | cons b t ih =>
    rw [List.length_cons, fromBits, toBits]
    have hb : ((if b then 1 else 0) + 2 * fromBits t) % 2 = if b then 1 else 0 := by
      rcases b with _ | _ <;> simp [Nat.add_mul_mod_self_left]
    have hd : ((if b then 1 else 0) + 2 * fromBits t) / 2 = fromBits t := by
      rcases b with _ | _ <;> omega
    rw [hb, hd, ih]
    rcases b with _ | _ <;> simp

theorem chunkList_length_mem {α : Type} {k : Nat} (hk : 0 < k) :
    ∀ (l : List α) (c : List α), c ∈ chunkList k l → c.length = k := by
  suffices h : ∀ (n : Nat) (l : List α), l.length = n →
      ∀ c ∈ chunkList k l, c.length = k by
    intro l c hc
    exact h l.length l rfl c hc
  intro n
  induction n using Nat.strong_induction_on with
  | _ n ih =>
  intro l hn c hc
  rw [chunkList_eq] at hc
  split at hc
  · rename_i h
    rcases List.mem_cons.mp hc with rfl | hmem
    · rw [List.length_take]
      omega
    · have hdrop : (l.drop k).length = l.length - k := List.length_drop k l
      exact ih (l.length - k) (by omega) (l.drop k) (by omega) c hmem
  · cases hc

theorem length_flatten_const {α β : Type} (f : β → List α) (k : Nat)
    (hf : ∀ x, (f x).length = k) (a : List β) :
    ((a.map f).flatten).length = a.length * k := by
  induction a with
  | nil => simp
  | cons x t ih =>
    rw [List.map_cons, List.flatten_cons, List.length_append, ih, hf,
      List.length_cons]
    ring

theorem chunkList_flatten {α : Type} {k : Nat} (hk : 0 < k) :
    ∀ (l : List α), k ∣ l.length → (chunkList k l).flatten = l := by
  suffices h : ∀ (n : Nat) (l : List α), l.length = n → k ∣ l.length →
      (chunkList k l).flatten = l by
    intro l hdvd
    exact h l.length l rfl hdvd
  intro n
  induction n using Nat.strong_induction_on with
  | _ n ih =>
  intro l hn hdvd
  rcases Nat.eq_zero_or_pos n with rfl | hpos
  · have : l = [] := List.eq_nil_of_length_eq_zero hn
    subst this
    rw [chunkList_eq, if_neg (by
      simp only [List.length_nil]
      omega)]
    rfl
  · have hkle : k ≤ l.length := by
      rcases hdvd with ⟨c, hc⟩
      rcases Nat.eq_zero_or_pos c with rfl | hcpos
      · omega
      · have : k ≤ k * c := Nat.le_mul_of_pos_right _ hcpos
        omega
    rw [chunkList_eq, if_pos ⟨hk, hkle⟩]
    rw [List.flatten_cons]
    have hdrop : (l.drop k).length = l.length - k := List.length_drop k l
    have hdvd2 : k ∣ (l.drop k).length := by
      rw [hdrop]
      exact Nat.dvd_sub' hdvd (dvd_refl k)
    have ihd := ih (l.length - k) (by omega) (l.drop k) (by omega) hdvd2
    rw [ihd, List.take_append_drop]

theorem chunkList_concat {α : Type} {k : Nat} (hk : 0 < k) :
    ∀ (ll : List (List α)), (∀ c ∈ ll, c.length = k) →
      chunkList k ll.flatten = ll := by
  intro ll
  induction ll with
  | nil =>
    intro _
    rw [List.flatten_nil, chunkList_eq, if_neg (by
      simp only [List.length_nil]
      omega)]
  | cons c rest ih =>
    intro hlen
    have hc : c.length = k := hlen c (List.mem_cons_self _ _)
    rw [List.flatten_cons, chunkList_eq, if_pos ⟨hk, by
      rw [List.length_append, hc]
      omega⟩]
    rw [List.take_left' hc, List.drop_left' hc,
      ih (fun d hd => hlen d (List.mem_cons_of_mem _ hd))]

/-- Round trip: for a reduced vector whose length is a multiple of 8,
`deserialize_vec ∘ serialize_vec` is the identity. -/
theorem serde_roundtrip {p : Nat} {a : List Nat} (hp : 2 ≤ p)
    (hlen : a.length % 8 = 0) (hred : ∀ x ∈ a, x < p) :
    (serialize_vec p a).map (deserialize_vec p) = some a := by
  set nbits := (p - 1).size with hnb
  have hnpos : 0 < nbits := by
    rw [hnb]
    rcases Nat.eq_zero_or_pos (p - 1).size with h | h
    · rw [Nat.size_eq_zero] at h
      omega
    · exact h
  have hple : p ≤ 2 ^ nbits := by
    rw [hnb]
    have := Nat.lt_size_self (p - 1)
    omega
  rw [serialize_vec, if_pos hlen, Option.map_some']
  congr 1
  rw [deserialize_vec, transcode_backward, transcode_forward]
  set bits := (a.map (toBits nbits)).flatten with hbits
  have hbitlen : bits.length = a.length * nbits :=
    length_flatten_const (toBits nbits) nbits (toBits_length nbits) a
  -- unpacking the bytes gives back the bit stream
  have hback : ((chunkList 8 bits).map fromBits |>.map (toBits 8)).flatten = bits := by
    have hchunklen : ∀ c ∈ chunkList 8 bits, c.length = 8 :=
      chunkList_length_mem (by omega) bits
    rw [List.map_map]
    have : ∀ c ∈ chunkList 8 bits, (toBits 8 ∘ fromBits) c = c := by
      intro c hc
      have h8 : c.length = 8 := hchunklen c hc
      rw [Function.comp, ← h8, toBits_fromBits]
    rw [List.map_congr_left this, List.map_id']
    exact chunkList_flatten (by omega) bits (by
      rw [hbitlen]
      exact dvd_mul_of_dvd_left (Nat.dvd_of_mod_eq_zero hlen) nbits)
  rw [hback]
  rw [chunkList_concat hnpos (a.map (toBits nbits))
    (by
      intro c hc
      obtain ⟨x, _, rfl⟩ := List.mem_map.mp hc
      exact toBits_length _ _)]
  rw [List.map_map]
  have : ∀ x ∈ a, (fromBits ∘ toBits nbits) x = x := by
    intro x hx
    rw [Function.comp, fromBits_toBits]
    exact Nat.mod_eq_of_lt (lt_of_lt_of_le (hred x hx) hple)
  rw [List.map_congr_left this, List.map_id']

end Ser

/-! ## Claims -/

namespace Claims

/-- C1: for every coefficient value, every pair of RNS bases realizing it and
every rational factor `num/den`, the scaler's output coefficient equals
`round(value·num/den)` as computed by the exact CRT-reconstructed big-integer
reference, so the output is independent of which basis realizes the value. -/
theorem scaler_matches_bigint_reference
    (B1 B2 : List Nat) (v num den q : Nat)
    (h1co : B1.Pairwise Nat.Coprime) (h1pos : ∀ p ∈ B1, 0 < p)
    (hv1 : v < B1.prod)
    (h2co : B2.Pairwise Nat.Coprime) (h2pos : ∀ p ∈ B2, 0 < p)
    (hv2 : v < B2.prod) :
    Rns.scaleCoeff B1 (B1.map (v % ·)) num den q = Rns.refScale v num den % q ∧
    Rns.scaleCoeff B2 (B2.map (v % ·)) num den q = Rns.refScale v num den % q ∧
    Rns.scaleCoeff B1 (B1.map (v % ·)) num den q
      = Rns.scaleCoeff B2 (B2.map (v % ·)) num den q := by
  have h1 : Rns.scaleCoeff B1 (B1.map (v % ·)) num den q
      = Rns.refScale v num den % q := by
    rw [Rns.scaleCoeff, Rns.crtLift_map h1co h1pos hv1, Rns.refScale]
  have h2 : Rns.scaleCoeff B2 (B2.map (v % ·)) num den q
      = Rns.refScale v num den % q := by
    rw [Rns.scaleCoeff, Rns.crtLift_map h2co h2pos hv2, Rns.refScale]
  exact ⟨h1, h2, by rw [h1, h2]⟩

theorem scaler_matches_bigint_reference_witness :
    Rns.scaleCoeff [3, 5] ([3, 5].map (11 % ·)) 2 3 7
        = Rns.refScale 11 2 3 % 7 ∧
      Rns.scaleCoeff [2, 7] ([2, 7].map (11 % ·)) 2 3 7
        = Rns.refScale 11 2 3 % 7 ∧
      Rns.scaleCoeff [3, 5] ([3, 5].map (11 % ·)) 2 3 7
        = Rns.scaleCoeff [2, 7] ([2, 7].map (11 % ·)) 2 3 7 :=
  scaler_matches_bigint_reference [3, 5] [2, 7] 11 2 3 7 (by decide) (by decide)
    (by decide) (by decide) (by decide) (by decide)

/-- C4: constant-time `Modulus::add`/`sub`/`mul` return `(a+b) mod p`,
`(a−b) mod p` and `(a·b) mod p` on reduced inputs and agree with their
variable-time siblings; the debug-build entry points reject inputs `≥ p`
(checked variants are `some` exactly on reduced inputs). -/
theorem modulus_arith_correct (p a b : Nat) (hp : 2 ≤ p) (hp62 : p < 2 ^ 62)
    (ha : a < p) (hb : b < p) :
    Modulus.add p a b = (a + b) % p ∧
    Modulus.add_vt p a b = Modulus.add p a b ∧
    Modulus.sub p a b = (a + p - b) % p ∧
    Modulus.sub_vt p a b = Modulus.sub p a b ∧
    Modulus.mul p a b = a * b % p ∧
    Modulus.mul_vt p a b = Modulus.mul p a b ∧
    (∀ x y : Nat, (Modulus.add_checked p x y).isSome = true ↔ x < p ∧ y < p) ∧
    (∀ x y : Nat, (Modulus.sub_checked p x y).isSome = true ↔ x < p ∧ y < p) ∧
    (∀ x y : Nat, (Modulus.mul_checked p x y).isSome = true ↔ x < p ∧ y < p) := by
  refine ⟨Modulus.add_spec hp hp62 ha hb, ?_, Modulus.sub_spec hp hp62 ha hb,
    ?_, Modulus.mul_spec hp hp62 ha hb, ?_, ?_, ?_, ?_⟩
  · rw [Modulus.add_vt_spec hp hp62 ha hb, Modulus.add_spec hp hp62 ha hb]
  · rw [Modulus.sub_vt_spec hp hp62 ha hb, Modulus.sub_spec hp hp62 ha hb]
  · rw [Modulus.mul_vt_spec hp hp62 ha hb, Modulus.mul_spec hp hp62 ha hb]
  · intro x y
    rw [Modulus.add_checked]
    split <;> simp_all
  · intro x y
    rw [Modulus.sub_checked]
    split <;> simp_all
  · intro x y
    rw [Modulus.mul_checked]
    split <;> simp_all

theorem modulus_arith_correct_witness :
    Modulus.add 97 45 80 = (45 + 80) % 97 ∧
      Modulus.mul 97 45 80 = 45 * 80 % 97 :=
  ⟨(modulus_arith_correct 97 45 80 (by decide) (by decide) (by decide)
      (by decide)).1,
   (modulus_arith_correct 97 45 80 (by decide) (by decide) (by decide)
      (by decide)).2.2.2.2.1⟩

/-- C9 (amended): for every valid modulus `p` and every reduced vector whose
length is a multiple of 8 (the documented precondition of `serialize_vec`),
`deserialize_vec (serialize_vec a)` returns `a`. -/
theorem serialize_roundtrip_identity (p : Nat) (a : List Nat) (hp : 2 ≤ p)
    (_hp62 : p < 2 ^ 62) (hlen : a.length % 8 = 0) (hred : ∀ x ∈ a, x < p) :
    (Ser.serialize_vec p a).map (Ser.deserialize_vec p) = some a :=
  Ser.serde_roundtrip hp hlen hred

theorem serialize_roundtrip_identity_witness :
    (Ser.serialize_vec 3 [0, 1, 2, 2, 1, 0, 1, 2]).map (Ser.deserialize_vec 3)
      = some [0, 1, 2, 2, 1, 0, 1, 2] :=
  serialize_roundtrip_identity 3 [0, 1, 2, 2, 1, 0, 1, 2] (by decide)
    (by decide) (by decide) (by decide)

/-- C9 counterexample: `p = 2` is a valid modulus and `[0]` is reduced
mod 2, yet `deserialize_vec (serialize_vec [0])` is not `[0]`: the length 1
is not a multiple of 8, so serialization panics (the documented panic of
`serialize_vec`, modelled as `none`). -/
theorem serialize_roundtrip_counterexample :
    2 ≤ 2 ∧ 2 < 2 ^ 62 ∧ (∀ x ∈ [0], x < 2) ∧
      (Ser.serialize_vec 2 [0]).map (Ser.deserialize_vec 2) ≠ some [0] := by
  decide

/-- C10: `set_variance` accepts exactly the range `1..=16`: in range it
updates only the variance; out of range it returns an explicit error and
leaves the builder unchanged; and the builder's default variance is 1. -/
theorem set_variance_range (b : Params.Builder) (v : Nat) :
    Params.Builder.new.variance = 1 ∧
    (1 ≤ v ∧ v ≤ 16 →
      Params.set_variance b v = ({ b with variance := v }, none)) ∧
    (¬(1 ≤ v ∧ v ≤ 16) →
      Params.set_variance b v = (b, some "The variance must be in 1..=16")) := by
  refine ⟨rfl, ?_, ?_⟩
  · intro h
    rw [Params.set_variance, if_neg (by omega)]
  · intro h
    rw [Params.set_variance, if_pos (by omega)]

theorem set_variance_range_witness :
    Params.set_variance Params.Builder.new 20
        = (Params.Builder.new, some "The variance must be in 1..=16") ∧
      Params.set_variance Params.Builder.new 7
        = ({ Params.Builder.new with variance := 7 }, none) :=
  ⟨(set_variance_range Params.Builder.new 20).2.2 (by omega),
   (set_variance_range Params.Builder.new 7).2.1 (by omega)⟩

set_option maxRecDepth 40000 in
/-- C2 counterexample: `[1153]` (NTT-friendly for degree 8) with plaintext
modulus `t = 5` is a buildable parameter set, and `build` stores
`delta = 461 = −5⁻¹ mod 1153`, while `round(Q/t) = round(1153/5) = 231`:
the stored delta is not `round(Q/t)`. -/
theorem delta_counterexample :
    Params.deltaValue [1153] 5 = some 461 ∧
      Rns.roundDiv 1153 5 = 231 ∧
      Params.deltaValue [1153] 5 ≠ some (Rns.roundDiv 1153 5) := by
  decide

/-- C2 (amended): the `delta` element computed by `build` is the constant
polynomial with value `−t⁻¹ mod Q` (as the code comment states): the unique
`d < Q` with `d·t ≡ −1 (mod Q)`, stored in NttShoup representation. -/
theorem delta_is_neg_inv_t (moduli : List Nat) (t : Nat)
    (hco : moduli.Pairwise Nat.Coprime)
    (hprime : ∀ m ∈ moduli, m.Prime ∧ m < 2 ^ 62)
    (ht : 0 < t) (htlt : ∀ m ∈ moduli, t < m) :
    ∃ d, Params.deltaValue moduli t = some d ∧ d < moduli.prod ∧
      d * t % moduli.prod = moduli.prod - 1 :=
  Params.deltaValue_spec hco hprime ht htlt

theorem delta_is_neg_inv_t_witness :
    ∃ d, Params.deltaValue [5] 2 = some d ∧ d < [5].prod ∧
      d * 2 % [5].prod = [5].prod - 1 :=
  delta_is_neg_inv_t [5] 2 (by decide) (by
    intro m hm
    rw [List.mem_singleton] at hm
    subst hm
    exact ⟨by norm_num, by norm_num⟩) (by decide) (by decide)

/-- C5: after `minimizes` (which rescales every limb through the
modulus-switch scaler and sets the flag), every homomorphic operator
(`+=`, `-=`, negation, plaintext multiply, ciphertext multiply) and
relinearizing multiplication (`mul`/`mul2` via `mul_internal`) fails on the
ciphertext in either operand position; the decryption guard still accepts
it. -/
theorem minimized_rejects_homomorphic_ops {P : Type} (ops : Bfv.PolyOps P)
    (modswitch ext1 toPB down toNtt : P → P) (pmulPt : P → P → P)
    (ct other : Bfv.Ciphertext P) (pt : Bfv.PlaintextM P)
    (ek : Bfv.EvalKey P) (mp : Bfv.MulParams P) :
    (Bfv.minimizes modswitch ct).minimized = true ∧
    (Bfv.minimizes modswitch ct).c = ct.c.map modswitch ∧
    Bfv.addAssign ops (Bfv.minimizes modswitch ct) other = none ∧
    Bfv.addAssign ops other (Bfv.minimizes modswitch ct) = none ∧
    Bfv.subAssign ops (Bfv.minimizes modswitch ct) other = none ∧
    Bfv.subAssign ops other (Bfv.minimizes modswitch ct) = none ∧
    Bfv.negCt ops (Bfv.minimizes modswitch ct) = none ∧
    Bfv.mulPlaintextAssign pmulPt (Bfv.minimizes modswitch ct) pt = none ∧
    Bfv.mulCt ops ext1 toPB down toNtt (Bfv.minimizes modswitch ct) other = none ∧
    Bfv.mulCt ops ext1 toPB down toNtt other (Bfv.minimizes modswitch ct) = none ∧
    Bfv.exceptOk (Bfv.mul_internal ops (Bfv.minimizes modswitch ct) other ek mp)
      = false ∧
    Bfv.exceptOk (Bfv.mul_internal ops other (Bfv.minimizes modswitch ct) ek mp)
      = false ∧
    (∀ skPar : Bfv.BfvParams, skPar = ct.par →
      Bfv.decryptGuard skPar (Bfv.minimizes modswitch ct) = .ok ()) := by
  refine ⟨rfl, rfl, ?_, ?_, ?_, ?_, ?_, ?_, ?_, ?_, ?_, ?_, ?_⟩
  · simp [Bfv.addAssign, Bfv.minimizes]
  · simp [Bfv.addAssign, Bfv.minimizes]
  · simp [Bfv.subAssign, Bfv.minimizes]
  · simp [Bfv.subAssign, Bfv.minimizes]
  · simp [Bfv.negCt, Bfv.minimizes]
  · simp [Bfv.mulPlaintextAssign, Bfv.minimizes]
  · simp [Bfv.mulCt, Bfv.minimizes]
  · simp [Bfv.mulCt, Bfv.minimizes]
  · simp [Bfv.mul_internal, Bfv.minimizes, apply_ite Bfv.exceptOk,
      Bfv.exceptOk_error]
  · simp [Bfv.mul_internal, Bfv.minimizes, apply_ite Bfv.exceptOk,
      Bfv.exceptOk_error]
  · intro skPar h
    rw [Bfv.decryptGuard, if_neg]
    simp [Bfv.minimizes, h]

/-- Fixture: ring-element operations on `Nat` for concrete witnesses. -/
def natOps : Bfv.PolyOps Nat :=
  { padd := Nat.add, psub := Nat.sub, pneg := Nat.succ, pmul := Nat.mul,
    zero := 0 }

/-- Fixture: a parameter set with two ciphertext moduli. -/
def parW : Bfv.BfvParams :=
  { polynomial_degree := 8, plaintext_modulus := 5,
    ciphertext_moduli := [17, 97], variance := 1 }

/-- Fixture: a fresh two-limb ciphertext. -/
def ctW : Bfv.Ciphertext Nat :=
  { par := parW, seed := some 3, c := [1, 2], minimized := false }

/-- Fixture: an evaluation key supporting relinearization. -/
def ekW : Bfv.EvalKey Nat :=
  { supports_relin := true, relin := fun a b _ => (a, b) }

/-- Fixture: identity multiplication parameters. -/
def mpW : Bfv.MulParams Nat :=
  { extender_self := id, extender_other := id, down_scaler := id,
    toPowerBasis := id, toNtt := id }

/-- Fixture: a plaintext under the same parameters. -/
def ptW : Bfv.PlaintextM Nat := { par := parW, poly_ntt := 3 }

theorem minimized_rejects_homomorphic_ops_witness :
    Bfv.addAssign natOps (Bfv.minimizes id ctW) ctW = none ∧
      Bfv.decryptGuard parW (Bfv.minimizes id ctW) = .ok () := by
  obtain ⟨h1, h2, h3, h4, h5, h6, h7, h8, h9, h10, h11, h12, h13⟩ :=
    minimized_rejects_homomorphic_ops natOps id id id id id (fun a b => a * b)
      ctW ctW ptW ekW mpW
  exact ⟨h3, h13 parW rfl⟩

/-- C6: `mul`/`mul2` (that is, `mul_internal` with `mul_1_params` resp.
`mul_2_params`) return a recoverable error exactly when the evaluation key
lacks relinearization support, the operand parameter sets differ, an operand
is minimized, the scheme has a single ciphertext modulus, or an operand does
not have exactly two limbs; otherwise they return a two-limb ciphertext. -/
theorem mul_error_iff {P : Type} (ops : Bfv.PolyOps P)
    (ct0 ct1 : Bfv.Ciphertext P) (ek : Bfv.EvalKey P) (mp : Bfv.MulParams P) :
    (Bfv.exceptOk (Bfv.mul_internal ops ct0 ct1 ek mp) = false ↔
      (ek.supports_relin = false ∨ ct0.par ≠ ct1.par ∨
        (ct0.minimized ∨ ct1.minimized) ∨
        ct0.par.ciphertext_moduli.length = 1 ∨
        (ct0.c.length ≠ 2 ∨ ct1.c.length ≠ 2))) ∧
    (¬(ek.supports_relin = false ∨ ct0.par ≠ ct1.par ∨
        (ct0.minimized ∨ ct1.minimized) ∨
        ct0.par.ciphertext_moduli.length = 1 ∨
        (ct0.c.length ≠ 2 ∨ ct1.c.length ≠ 2)) →
      ∃ ct', Bfv.mul_internal ops ct0 ct1 ek mp = .ok ct' ∧ ct'.c.length = 2) := by
  rw [Bfv.mul_internal]
  split_ifs with h1 h2 h3 h4 h5
  · constructor
    · simp only [Bfv.exceptOk]
      tauto
    · tauto
  · constructor
    · simp only [Bfv.exceptOk]
      tauto
    · tauto
  · constructor
    · simp only [Bfv.exceptOk]
      tauto
    · tauto
  · constructor
    · simp only [Bfv.exceptOk]
      tauto
    · tauto
  · constructor
    · simp only [Bfv.exceptOk]
      tauto
    · tauto
  · constructor
    · simp only [Bfv.exceptOk]
      constructor
      · intro h
        cases h
      · intro h
        tauto
    · intro _
      exact ⟨_, rfl, rfl⟩

theorem mul_error_iff_witness :
    ∃ ct', Bfv.mul_internal natOps ctW ctW ekW mpW = .ok ct' ∧
      ct'.c.length = 2 := by
  apply (mul_error_iff natOps ctW ctW ekW mpW).2
  decide

/-- C8: ciphertext addition/subtraction/negation act per-limb and clear the
retained seed, fail when an operand is minimized or the parameter sets
differ, and adding into an empty accumulator adopts the other operand
directly. -/
theorem add_sub_neg_frame {P : Type} (ops : Bfv.PolyOps P)
    (self rhs : Bfv.Ciphertext P) :
    (self.par ≠ rhs.par →
      Bfv.addAssign ops self rhs = none ∧ Bfv.subAssign ops self rhs = none) ∧
    (self.minimized = true ∨ rhs.minimized = true →
      Bfv.addAssign ops self rhs = none ∧ Bfv.subAssign ops self rhs = none) ∧
    (rhs.minimized = true → Bfv.negCt ops rhs = none) ∧
    (self.par = rhs.par → self.minimized = false → rhs.minimized = false →
      self.c = [] → Bfv.addAssign ops self rhs = some rhs) ∧
    (self.par = rhs.par → self.minimized = false → rhs.minimized = false →
      self.c ≠ [] → self.c.length = rhs.c.length →
      Bfv.addAssign ops self rhs
          = some { par := self.par, seed := none,
                   c := List.zipWith ops.padd self.c rhs.c, minimized := false } ∧
        Bfv.subAssign ops self rhs
          = some { par := self.par, seed := none,
                   c := List.zipWith ops.psub self.c rhs.c, minimized := false }) ∧
    (rhs.minimized = false →
      Bfv.negCt ops rhs
        = some { par := rhs.par, seed := none, c := rhs.c.map ops.pneg,
                 minimized := false }) := by
  obtain ⟨spar, sseed, sc, smin⟩ := self
  obtain ⟨rpar, rseed, rc, rmin⟩ := rhs
  refine ⟨?_, ?_, ?_, ?_, ?_, ?_⟩
  · intro h
    constructor
    · rw [Bfv.addAssign, if_pos h]
    · rw [Bfv.subAssign, if_pos h]
  · intro h
    simp only at h
    constructor
    · rw [Bfv.addAssign]
      by_cases hp : spar ≠ rpar
      · rw [if_pos hp]
      · rw [if_neg hp, if_pos (by
          simp only []
          tauto)]
    · rw [Bfv.subAssign]
      by_cases hp : spar ≠ rpar
      · rw [if_pos hp]
      · rw [if_neg hp, if_pos (by
          simp only []
          tauto)]
  · intro h
    simp only at h
    rw [Bfv.negCt, if_pos (by simp [h])]
  · intro hpar hmin1 hmin2 hempty
    simp only at hpar hmin1 hmin2 hempty
    subst hpar hmin1 hmin2 hempty
    rw [Bfv.addAssign, if_neg (by simp), if_neg (by simp), if_pos (by simp)]
  · intro hpar hmin1 hmin2 hne hlen
    simp only at hpar hmin1 hmin2 hne hlen
    subst hpar hmin1 hmin2
    constructor
    · rw [Bfv.addAssign, if_neg (by simp), if_neg (by simp),
        if_neg (by simpa using hne), if_neg (by simpa using hlen)]
    · rw [Bfv.subAssign, if_neg (by simp), if_neg (by simp),
        if_neg (by simpa using hne), if_neg (by simpa using hlen)]
  · intro h
    simp only at h
    subst h
    rw [Bfv.negCt, if_neg (by simp)]

theorem add_sub_neg_frame_witness :
    Bfv.addAssign natOps (Bfv.zeroCt Nat parW) ctW = some ctW ∧
      Bfv.negCt natOps ctW
        = some { par := parW, seed := none, c := [2, 3], minimized := false } := by
  refine ⟨?_, ?_⟩
  · exact (add_sub_neg_frame natOps (Bfv.zeroCt Nat parW) ctW).2.2.2.1
      rfl rfl rfl rfl
  · exact ((add_sub_neg_frame natOps (Bfv.zeroCt Nat parW) ctW).2.2.2.2.2
      rfl).trans rfl

set_option maxRecDepth 40000 in
/-- C7: parameter construction fails with a distinguishing, explicit,
recoverable error for each invalid input: degree below 8 or not a power of
two; plaintext modulus outside `[2, 2^62)`; zero of the two moduli
specifications given (and giving two is rejected by the setters); a
requested moduli bit-size outside `[10, 62]`; and inability to find enough
distinct NTT-friendly primes (witnessed at size 10, degree 256, where no
10-bit prime is ≡ 1 mod 512); the five error messages are pairwise
distinct. -/
theorem builder_error_conditions :
    (∀ (b : Params.Builder) (d : Nat), (d < 8 ∨ ¬∃ k, d = 2 ^ k) →
      Params.set_degree b d
        = (b, some "The degree should be a power of two larger or equal to 8")) ∧
    (∀ (b : Params.Builder) (t : Nat), (t < 2 ∨ 2 ^ 62 ≤ t) →
      Params.set_plaintext_modulus b t
        = (b, some "modulus should be between 2 and 2^62-1")) ∧
    (∀ b : Params.Builder, b.degree ≠ 0 → b.plaintext ≠ 0 →
      b.ciphertext_moduli = [] → b.ciphertext_moduli_sizes = [] →
      Params.build_validate b = .error "Unspecified ciphertext moduli") ∧
    (∀ (b : Params.Builder) (sizes : List Nat), b.ciphertext_moduli ≠ [] →
      Params.set_ciphertext_moduli_sizes b sizes
        = (b, some "The set of ciphertext moduli is already specified")) ∧
    (∀ (b : Params.Builder) (moduli : List Nat), b.ciphertext_moduli_sizes ≠ [] →
      Params.set_ciphertext_moduli b moduli
        = (b, some "The set of ciphertext moduli sizes is already specified")) ∧
    (∀ (degree size : Nat) (rest : List Nat), (62 < size ∨ size < 10) →
      Params.generate_moduli (size :: rest) degree
        = .error "The moduli sizes must be between 10 and 62 bits.") ∧
    (Params.generate_moduli [10] 256
      = .error "Could not generate enough ciphertext moduli to match the sizes provided") ∧
    ["The degree should be a power of two larger or equal to 8",
      "modulus should be between 2 and 2^62-1",
      "Unspecified ciphertext moduli",
      "The set of ciphertext moduli is already specified",
      "The set of ciphertext moduli sizes is already specified",
      "The moduli sizes must be between 10 and 62 bits.",
      "Could not generate enough ciphertext moduli to match the sizes provided"].Nodup := by
  refine ⟨?_, ?_, ?_, ?_, ?_, ?_, ?_, by decide⟩
  · intro b d h
    rw [Params.set_degree, if_pos]
    rcases h with h | h
    · exact Or.inl h
    · refine Or.inr ?_
      rcases hb : Params.is_power_of_two d with _ | _
      · rfl
      · exact absurd (Params.is_power_of_two_iff.mp hb) h
  · intro b t h
    rw [Params.set_plaintext_modulus, if_pos h]
  · intro b h1 h2 h3 h4
    rw [Params.build_validate, if_neg h1, if_neg h2, if_pos ⟨h3, h4⟩]
  · intro b sizes h
    rw [Params.set_ciphertext_moduli_sizes, if_pos h]
  · intro b moduli h
    rw [Params.set_ciphertext_moduli, if_pos h]
  · intro degree size rest h
    rw [Params.generate_moduli, Params.genModuliGo, if_pos h]
  · rfl

theorem builder_error_conditions_witness :
    Params.set_degree Params.Builder.new 7
        = (Params.Builder.new,
           some "The degree should be a power of two larger or equal to 8") ∧
      Params.set_plaintext_modulus Params.Builder.new 1
        = (Params.Builder.new, some "modulus should be between 2 and 2^62-1") ∧
      Params.generate_moduli [63] 8
        = .error "The moduli sizes must be between 10 and 62 bits." := by
  obtain ⟨h1, h2, h3, h4, h5, h6, h7, h8⟩ := builder_error_conditions
  exact ⟨h1 Params.Builder.new 7 (Or.inl (by omega)),
    h2 Params.Builder.new 1 (Or.inl (by omega)),
    h6 8 63 [] (Or.inl (by omega))⟩

end Claims

end FheNoStd
